import Mathlib

/-!
# Verification of the style-resolution core of `parse-css-to-stylesheet`

This file gives a shallow embedding, in Lean 4, of the parts of the
repository that the specification's claims are about:

* the style value model and its two platform lowerings
  (`src/style_propetries/animation.rs`, `box_shadow.rs`, `macros.rs`),
* the style declaration correlator & injector
  (`src/visitor.rs`, `AstMutVisitor::visit_mut_jsx_element`),
* the source tree builder (`src/visitor.rs`, `JSXVisitor`,
  `JSXFragmentVisitor`, `recursion_sub_tree`).

Modelling conventions:

* `f32`/`f64` values are modelled as exact rationals (`ℚ`); the claims under
  test only involve multiplications by integer constants.
* Rust `Option::unwrap` on a value that can be `None` is modelled by making
  the function return an `Option`, with `none` standing for the panic.
* Rust `HashMap` is modelled as an association list whose `insert` replaces
  the value in place when the key is present and appends otherwise; its
  iteration order is the resulting list order (one admissible order of the
  unordered `HashMap` iteration).
* Rust `String` values that are split and re-joined by the injector are
  modelled as `List Char`, with a character-level `split` that agrees with
  Rust's `str::split` on single-character separators.
-/

/-- The two lowering targets (`Platform` in `style_propetries/unit.rs`). -/
inductive Platform where
  | harmony
  | reactNative
  deriving DecidableEq, Repr

/-- Target-language expressions, the output shape of the lowering macros in
`macros.rs` (`Expr` of `swc_core` restricted to the constructors the style
lowerings produce).  Object keys are collapsed to plain strings (the source
uses both `PropName::Ident` and `PropName::Str`). -/
inductive EExpr where
  | num (q : ℚ)
  | str (s : String)
  | bool (b : Bool)
  | tpl (raw : String)
  | ident (s : String)
  | array (elems : List EExpr)
  | object (props : List (String × EExpr))
  | invalid

/-- `PropertyTuple` from `style_propetries/unit.rs`: one (field, expression)
pair or an ordered sequence of such pairs. -/
inductive PropertyTuple where
  | one (id : String) (e : EExpr)
  | array (items : List (String × EExpr))

/-- `lightningcss` time values (`values::time::Time`). -/
inductive Time where
  | seconds (s : ℚ)
  | milliseconds (m : ℚ)
  deriving DecidableEq, Repr

/-- `lightningcss` animation iteration count. -/
inductive AnimationIterationCount where
  | number (n : ℚ)
  | infinite
  deriving DecidableEq, Repr

/-- One member of a `lightningcss` `animation` shorthand list; the easing
function is carried as its CSS textual serialization (the source only ever
serializes it with `to_css_string`). -/
structure AnimationItem where
  name : String
  duration : Time
  delay : Time
  iteration_count : AnimationIterationCount
  timing_function : String
  deriving DecidableEq, Repr

/-- A `lightningcss` `LengthValue` (a dimension such as `10px`), carried as
unit string plus numeric value. -/
structure LengthValue where
  unit : String
  value : ℚ
  deriving DecidableEq, Repr

/-- `lightningcss` `Length`: a literal dimension or a `calc()` expression,
the latter carried as its CSS textual serialization (the source only ever
takes `to_css_string` of the calc). -/
inductive Length where
  | value (v : LengthValue)
  | calc (s : String)
  deriving DecidableEq, Repr

/-- `lightningcss` `DimensionPercentage`: a dimension, a percentage (stored
as a fraction, so `50%` is `0.5`), or a `calc()` serialization. -/
inductive DimensionPercentage where
  | dimension (v : LengthValue)
  | percentage (p : ℚ)
  | calc (s : String)
  deriving DecidableEq, Repr

/-- `lightningcss` `LengthPercentageOrAuto`. -/
inductive LengthPercentageOrAuto where
  | auto
  | lengthPercentage (v : DimensionPercentage)
  deriving DecidableEq, Repr

/-- `lightningcss` `Size` (the value type of `width`/`height`-family
properties): `auto`, a length-percentage, or one of the other keywords
(`min-content`, …) which the source treats uniformly via its `_` arm. -/
inductive SizeValue where
  | autoKw
  | lengthPercentage (v : DimensionPercentage)
  | otherKeyword
  deriving DecidableEq, Repr

/-- A `lightningcss` `CssColor`, carried as its CSS serialization under the
hex-alpha-colors feature flag (the source only ever calls `to_css_string`
on it, with that flag forced on). -/
structure CssColor where
  css : String
  deriving DecidableEq, Repr

/-- One parsed `box-shadow` layer (`lightningcss` `BoxShadow`). -/
structure BoxShadowValue where
  x_offset : Length
  y_offset : Length
  blur : Length
  color : CssColor
  inset : Bool
  deriving DecidableEq, Repr

/-- The slice of `lightningcss::properties::Property` that the embedded
constructors match on.  The per-property macros of `macros.rs` are
instantiated at many concrete property names; the constructors
`lengthValueProp` and `sizeProp` stand for any one of the property names
listed in a `generate_length_value_property` / `generate_size_property`
invocation, and `otherProp` stands for every non-matching property tag. -/
inductive Property where
  | animation (list : List AnimationItem)
  | animationDelay (ts : List Time)
  | animationDuration (ts : List Time)
  | animationIterationCount (its : List AnimationIterationCount)
  | animationName (name : String)
  | animationTimingFunction (fs : List String)
  | boxShadow (layers : List BoxShadowValue)
  | lengthValueProp (v : LengthPercentageOrAuto)
  | sizeProp (v : SizeValue)
  | otherProp
  deriving DecidableEq, Repr

/-- Modelled from the spec: `generate_expr_by_length_value` lives in
`style_propetries/unit.rs`, which is not part of the provided sources.  Per
§4.3 of the spec, "a literal numeric length lowers to a numeric/dimension
expression"; it is modelled as emitting the numeric value.  No claim under
test depends on its exact output. -/
def generate_expr_by_length_value (v : LengthValue) (_p : Platform) : EExpr :=
  EExpr.num v.value

/-- Modelled from the spec: `convert_color_keywords_to_hex` lives in
`style_propetries/unit.rs`, which is not part of the provided sources.  Per
§4.3 it maps named colors to hex and leaves other serializations alone; it
is modelled as the identity, since no claim under test depends on
particular table entries. -/
def convert_color_keywords_to_hex (s : String) : String := s

/-- Modelled from the spec: the conversion-helper identifier
`CONVERT_STYLE_PX_FN` is defined in `constants.rs`, which is not part of
the provided sources; only the fact that three distinct helper identifiers
exist matters to the spec. -/
def CONVERT_STYLE_PX_FN : String := "convertNumber2VP"

/-- Modelled from the spec: see `CONVERT_STYLE_PX_FN`. -/
def RN_CONVERT_STYLE_PX_FN : String := "scalePx2dp"

/-- Modelled from the spec: see `CONVERT_STYLE_PX_FN`. -/
def RN_CONVERT_STYLE_VU_FN : String := "scaleVu2dp"

/-- The replacement the closure in `generate_expr_lit_calc!` produces for
one matched token `<digits><unit>` (macros.rs lines 49–67).  The numeric
parse is modelled as an exact `Nat` (the source parses into `i32`). -/
def calcReplacement (platform : Platform) (value : Nat) (unit : String) : String :=
  if platform = Platform.harmony then
    "$\x7b" ++ CONVERT_STYLE_PX_FN ++ "(" ++ toString value ++ ", \x27" ++ unit ++ "\x27)\x7d"
  else
    if unit = "px" then
      "$\x7b" ++ RN_CONVERT_STYLE_PX_FN ++ "(" ++ toString value ++ ", \x27px\x27)\x7d"
    else
      "$\x7b" ++ RN_CONVERT_STYLE_VU_FN ++ "(" ++ toString value ++ ", \x27" ++ unit ++ "\x27)\x7d"

/-- Recognize the unit suffix of a regex match: `px`, `vw` or `vh` at the
head of the input, returning it together with the rest of the input. -/
def unitOf : List Char → Option (String × List Char)
  | 'p' :: 'x' :: tl => some ("px", tl)
  | 'v' :: 'w' :: tl => some ("vw", tl)
  | 'v' :: 'h' :: tl => some ("vh", tl)
  | _ => none

/-- One step of the scanner behind the regex `(\d+(?:px|vw|vh))`: at the
current position take the maximal nonempty digit run and check that it is
immediately followed by `px`, `vw` or `vh`.  (Because the units contain no
digits, maximal-munch agrees with the regex's leftmost-match semantics.)
Returns the matched digits, the unit, and the rest of the input. -/
def calcMatchAt (cs : List Char) : Option (List Char × String × List Char) :=
  if (cs.takeWhile Char.isDigit).isEmpty then none
  else (unitOf (cs.dropWhile Char.isDigit)).map
    fun p => (cs.takeWhile Char.isDigit, p.1, p.2)

/-- Character-level digit-run value. -/
def digitsToNat (cs : List Char) : Nat :=
  cs.foldl (fun acc c => acc * 10 + (c.toNat - '0'.toNat)) 0

/-- `re.replace_all` over the calc serialization: scan left to right,
replacing each non-overlapping leftmost match of `(\d+(?:px|vw|vh))` by
`calcReplacement` (macros.rs `generate_expr_lit_calc!`). -/
def calcRewrite (platform : Platform) : List Char → List Char
  | [] => []
  | c :: cs =>
    match h : calcMatchAt (c :: cs) with
    | some (digits, unit, rest) =>
      (calcReplacement platform (digitsToNat digits) unit).data ++ calcRewrite platform rest
    | none => c :: calcRewrite platform cs
termination_by cs => cs.length
decreasing_by
  · have hsum : ((c :: cs).takeWhile Char.isDigit).length
        + ((c :: cs).dropWhile Char.isDigit).length = (c :: cs).length := by
      rw [← List.length_append, List.takeWhile_append_dropWhile]
    have hlt : rest.length < (c :: cs).length := by
      unfold calcMatchAt at h
      split at h
      · exact absurd h (by simp)
      · rcases ho : unitOf ((c :: cs).dropWhile Char.isDigit) with _ | ⟨u', tl⟩
        · rw [ho] at h
          exact absurd h (by simp)
        · rw [ho] at h
          have hlen : tl.length + 2 = ((c :: cs).dropWhile Char.isDigit).length := by
            unfold unitOf at ho
            split at ho <;> simp_all
          simp only [Option.map_some'] at h
          cases h
          omega
    simpa using hlt
  · simp

/-- `generate_expr_lit_calc!`: rewrite the calc string and wrap it in a
single-quasi template literal. -/
def generate_expr_lit_calc (s : String) (platform : Platform) : EExpr :=
  EExpr.tpl (String.mk (calcRewrite platform s.data))

/-- `generate_string_by_css_color!` (macros.rs lines 94–106). -/
def generate_string_by_css_color (c : CssColor) : EExpr :=
  EExpr.str (convert_color_keywords_to_hex c.css)

/-- `generate_expr_by_length!` (macros.rs lines 109–123). -/
def generate_expr_by_length (l : Length) (platform : Platform) : EExpr :=
  match l with
  | Length.value v => generate_expr_by_length_value v platform
  | Length.calc s => generate_expr_lit_calc s platform

/-- One keyframe item (`style_parser::KeyFrameItem`): a percentage in `[0,1]`
plus the nested declaration block.  `style_parser.rs` is not part of the
provided sources; per §3 of the spec the declarations are lowered per
platform by `parse_style_values`, so the block is carried here as its
already-lowered (field, expression) pairs. -/
structure KeyFrameItem where
  percentage : ℚ
  declarations : List (String × EExpr)

/-- The keyframe table: name → ordered keyframe items (`HashMap<String,
Vec<KeyFrameItem>>` behind `Rc<RefCell<…>>`), modelled as an association
list. -/
def KeyframeTable := List (String × List KeyFrameItem)

/-- Modelled from the spec: `parse_style_values` (referenced from
`animation.rs` but not present in the provided `visitor.rs`) lowers a
nested declaration block to (field, expression) pairs; since the block is
already carried in lowered form it is the identity here. -/
def parse_style_values (decls : List (String × EExpr)) (_p : Platform) :
    List (String × EExpr) :=
  decls

/-- `Animation` (style_propetries/animation.rs lines 11–20). -/
structure Animation where
  id : String
  keyframes : Option KeyframeTable
  animation_name : Option String
  animation_duration : Option ℚ
  animation_delay : Option ℚ
  animation_iteration : Option ℚ
  animation_timeing_function : Option String

/-- The time normalization applied in `Animation::from` (animation.rs lines
43–50, 59–70): seconds are stored as-is, milliseconds are multiplied
by 60. -/
def Animation.storeTime : Time → ℚ
  | Time.seconds s => s
  | Time.milliseconds m => m * 60

/-- The iteration-count normalization of `Animation::from`: `infinite`
becomes `-1`. -/
def Animation.storeIteration : AnimationIterationCount → ℚ
  | AnimationIterationCount.number n => n
  | AnimationIterationCount.infinite => -1

/-- `Animation::from` (animation.rs lines 22–97).  The `.get(0).unwrap()`
calls on the per-property vectors panic when the vector is empty; that
panic is modelled as `none`. -/
def Animation.fromProp (id : String) (p : Property) (kf : Option KeyframeTable) :
    Option Animation :=
  match p with
  | Property.animation list =>
    let folded := list.foldl
      (fun (acc : Option String × Option ℚ × Option ℚ × Option ℚ × Option String) a =>
        (some a.name, some (Animation.storeTime a.duration),
         some (Animation.storeTime a.delay),
         some (Animation.storeIteration a.iteration_count),
         some a.timing_function))
      (none, none, none, none, none)
    some { id := id, keyframes := kf, animation_name := folded.1,
           animation_duration := folded.2.1, animation_delay := folded.2.2.1,
           animation_iteration := folded.2.2.2.1,
           animation_timeing_function := folded.2.2.2.2 }
  | Property.animationDelay ts =>
    match ts.head? with
    | none => none
    | some t =>
      some { id := id, keyframes := kf, animation_name := none,
             animation_duration := none,
             animation_delay := some (Animation.storeTime t),
             animation_iteration := none, animation_timeing_function := none }
  | Property.animationDuration ts =>
    match ts.head? with
    | none => none
    | some t =>
      some { id := id, keyframes := kf, animation_name := none,
             animation_duration := some (Animation.storeTime t),
             animation_delay := none, animation_iteration := none,
             animation_timeing_function := none }
  | Property.animationIterationCount its =>
    match its.head? with
    | none => none
    | some it =>
      some { id := id, keyframes := kf, animation_name := none,
             animation_duration := none, animation_delay := none,
             animation_iteration := some (Animation.storeIteration it),
             animation_timeing_function := none }
  | Property.animationName name =>
    some { id := id, keyframes := kf, animation_name := some name,
           animation_duration := none, animation_delay := none,
           animation_iteration := none, animation_timeing_function := none }
  | Property.animationTimingFunction fs =>
    match fs.head? with
    | none => none
    | some f =>
      some { id := id, keyframes := kf, animation_name := none,
             animation_duration := none, animation_delay := none,
             animation_iteration := none, animation_timeing_function := some f }
  | _ =>
    some { id := id, keyframes := kf, animation_name := none,
           animation_duration := none, animation_delay := none,
           animation_iteration := none, animation_timeing_function := none }

/-- Association-list lookup standing for `HashMap::get`. -/
def kfLookup (t : KeyframeTable) (name : String) : Option (List KeyFrameItem) :=
  (t.find? (fun p => p.1 = name)).map Prod.snd

/-- The keyframe array emitted for a resolved animation name (animation.rs
lines 122–145): one `{percentage, event}` object per item, in table
order. -/
def keyframeArray (items : List KeyFrameItem) : EExpr :=
  EExpr.array (items.map fun item =>
    EExpr.object
      [("percentage", EExpr.num item.percentage),
       ("event", EExpr.object (parse_style_values item.declarations Platform.harmony))])

/-- `Animation::to_expr` (animation.rs lines 101–219): the Harmony
lowering.  Stored times are multiplied by 1000 at emission. -/
def Animation.to_expr (a : Animation) : PropertyTuple :=
  let exprs : List (String × EExpr) :=
    (match a.animation_delay with
     | some delay => [("animationDelay", EExpr.num (delay * 1000))]
     | none => []) ++
    (match a.animation_iteration with
     | some iteration => [("animationIterationCount", EExpr.num iteration)]
     | none => []) ++
    (match a.animation_duration with
     | some duration => [("animationDuration", EExpr.num (duration * 1000))]
     | none => []) ++
    (match a.animation_timeing_function with
     | some f => [("animationTimeingFunction", EExpr.str f)]
     | none => []) ++
    (match a.animation_name with
     | some name =>
       match a.keyframes with
       | some table =>
         match kfLookup table name with
         | some items => [("animationName", keyframeArray items)]
         | none => []
       | none => []
     | none => [])
  PropertyTuple.array exprs

/-- `Animation::to_rn_expr` (animation.rs lines 221–226): React Native does
not support the property and always emits the invalid marker. -/
def Animation.to_rn_expr (a : Animation) : PropertyTuple :=
  PropertyTuple.one a.id EExpr.invalid

/-- `BoxShadow` (style_propetries/box_shadow.rs lines 10–18). -/
structure BoxShadow where
  id : String
  offset_x : Option Length
  offset_y : Option Length
  blur_radius : Option Length
  color : Option CssColor
  inset : Option Bool

/-- `BoxShadow::new` (box_shadow.rs lines 21–30). -/
def BoxShadow.new (id : String) : BoxShadow :=
  { id := id, offset_x := none, offset_y := none, blur_radius := none,
    color := none, inset := none }

/-- `BoxShadow::from` (box_shadow.rs lines 121–138): fold over the parsed
layer list setting every field; non-`box-shadow` property tags leave every
field absent. -/
def BoxShadow.fromProp (id : String) (p : Property) : BoxShadow :=
  match p with
  | Property.boxShadow layers =>
    layers.foldl
      (fun acc val =>
        { acc with offset_x := some val.x_offset, offset_y := some val.y_offset,
                   blur_radius := some val.blur, color := some val.color,
                   inset := some val.inset })
      (BoxShadow.new id)
  | _ => BoxShadow.new id

/-- `BoxShadow::to_expr` (box_shadow.rs lines 54–92): the Harmony lowering
collects the present fields into one object under the single `boxShadow`
key, omitting every absent field. -/
def BoxShadow.to_expr (b : BoxShadow) : PropertyTuple :=
  let props : List (String × EExpr) :=
    (match b.offset_x with
     | some ox => [("offsetX", generate_expr_by_length ox Platform.harmony)]
     | none => []) ++
    (match b.offset_y with
     | some oy => [("offsetY", generate_expr_by_length oy Platform.harmony)]
     | none => []) ++
    (match b.blur_radius with
     | some br => [("radius", generate_expr_by_length br Platform.harmony)]
     | none => []) ++
    (match b.color with
     | some c => [("color", generate_string_by_css_color c)]
     | none => []) ++
    (match b.inset with
     | some i => [("fill", EExpr.bool i)]
     | none => [])
  PropertyTuple.one "boxShadow" (EExpr.object props)

/-- `BoxShadow::to_rn_expr` (box_shadow.rs lines 94–118): the React-Native
lowering unwraps `offset_x`, `offset_y`, `color` and `blur_radius`; each
`unwrap` on an absent field is a panic, modelled as `none`. -/
def BoxShadow.to_rn_expr (b : BoxShadow) : Option PropertyTuple :=
  match b.offset_x, b.offset_y, b.color, b.blur_radius with
  | some ox, some oy, some c, some br =>
    some (PropertyTuple.array
      [("BoxShadowOffset", EExpr.object
          [("width", generate_expr_by_length ox Platform.reactNative),
           ("height", generate_expr_by_length oy Platform.reactNative)]),
       ("BoxShadowColor", generate_string_by_css_color c),
       ("BoxShadowRadius", generate_expr_by_length br Platform.reactNative)])
  | _, _, _, _ => none

/-- The value enum generated by `generate_length_value_property`
(macros.rs lines 330–336). -/
inductive LengthEnumValue where
  | lengthValue (v : LengthValue)
  | percentage (p : ℚ)
  | string (s : String)
  | auto
  deriving DecidableEq, Repr

/-- A property class generated by `generate_length_value_property`
(macros.rs lines 319–388), e.g. margins and paddings. -/
structure LengthValueProperty where
  id : String
  value : LengthEnumValue
  deriving DecidableEq, Repr

/-- `generate_dimension_percentage!` (macros.rs lines 169–177). -/
def LengthEnumValue.ofDimensionPercentage : DimensionPercentage → LengthEnumValue
  | DimensionPercentage.dimension d => LengthEnumValue.lengthValue d
  | DimensionPercentage.percentage p => LengthEnumValue.percentage p
  | DimensionPercentage.calc s => LengthEnumValue.string s

/-- The `From` impl generated by `generate_length_value_property`
(macros.rs lines 364–386). -/
def LengthValueProperty.fromProp (id : String) (p : Property) : LengthValueProperty :=
  match p with
  | Property.lengthValueProp v =>
    { id := id,
      value :=
        match v with
        | LengthPercentageOrAuto.auto => LengthEnumValue.auto
        | LengthPercentageOrAuto.lengthPercentage lp =>
          LengthEnumValue.ofDimensionPercentage lp }
  | _ => { id := id, value := LengthEnumValue.string "auto" }

/-- Harmony lowering generated by `generate_length_value_property`
(macros.rs lines 339–349): `auto` is the explicit invalid marker. -/
def LengthValueProperty.to_expr (p : LengthValueProperty) : PropertyTuple :=
  PropertyTuple.one p.id
    (match p.value with
     | LengthEnumValue.string s => generate_expr_lit_calc s Platform.harmony
     | LengthEnumValue.lengthValue lv => generate_expr_by_length_value lv Platform.harmony
     | LengthEnumValue.percentage q => EExpr.str (toString (q * 100) ++ "%")
     | LengthEnumValue.auto => EExpr.invalid)

/-- React-Native lowering generated by `generate_length_value_property`
(macros.rs lines 351–361): `auto` is the literal string `"auto"`. -/
def LengthValueProperty.to_rn_expr (p : LengthValueProperty) : PropertyTuple :=
  PropertyTuple.one p.id
    (match p.value with
     | LengthEnumValue.string s => generate_expr_lit_calc s Platform.reactNative
     | LengthEnumValue.lengthValue lv => generate_expr_by_length_value lv Platform.reactNative
     | LengthEnumValue.percentage q => EExpr.str (toString (q * 100) ++ "%")
     | LengthEnumValue.auto => EExpr.str "auto")

/-- The value enum generated by `generate_size_property` (macros.rs lines
404–410). -/
inductive SizeEnumValue where
  | lengthValue (v : LengthValue)
  | percentage (p : ℚ)
  | string (s : String)
  | auto
  deriving DecidableEq, Repr

/-- A property class generated by `generate_size_property` (macros.rs lines
393–467), e.g. `width`/`height`. -/
structure SizeProperty where
  id : String
  value : SizeEnumValue
  deriving DecidableEq, Repr

/-- The `From` impl generated by `generate_size_property` (macros.rs lines
438–464): every non-length-percentage `Size` keyword (including `auto`)
maps to the `Auto` variant. -/
def SizeProperty.fromProp (id : String) (p : Property) : SizeProperty :=
  match p with
  | Property.sizeProp v =>
    { id := id,
      value :=
        match v with
        | SizeValue.lengthPercentage lp =>
          match lp with
          | DimensionPercentage.dimension d => SizeEnumValue.lengthValue d
          | DimensionPercentage.percentage q => SizeEnumValue.percentage q
          | DimensionPercentage.calc s => SizeEnumValue.string s
        | _ => SizeEnumValue.auto }
  | _ => { id := id, value := SizeEnumValue.string "auto" }

/-- Harmony lowering generated by `generate_size_property` (macros.rs lines
413–423): unlike the length-value family, `auto` is emitted as the literal
string `"auto"`, not the invalid marker. -/
def SizeProperty.to_expr (p : SizeProperty) : PropertyTuple :=
  PropertyTuple.one p.id
    (match p.value with
     | SizeEnumValue.string s => generate_expr_lit_calc s Platform.harmony
     | SizeEnumValue.lengthValue lv => generate_expr_by_length_value lv Platform.harmony
     | SizeEnumValue.percentage q => EExpr.str (toString (q * 100) ++ "%")
     | SizeEnumValue.auto => EExpr.str "auto")

/-- React-Native lowering generated by `generate_size_property` (macros.rs
lines 425–435). -/
def SizeProperty.to_rn_expr (p : SizeProperty) : PropertyTuple :=
  PropertyTuple.one p.id
    (match p.value with
     | SizeEnumValue.string s => generate_expr_lit_calc s Platform.reactNative
     | SizeEnumValue.lengthValue lv => generate_expr_by_length_value lv Platform.reactNative
     | SizeEnumValue.percentage q => EExpr.str (toString (q * 100) ++ "%")
     | SizeEnumValue.auto => EExpr.str "auto")

/-- The duration/delay/iteration/timing entries `Animation::to_expr` emits
before the animation-name entry (animation.rs lines 104–115). -/
def Animation.baseEntries (a : Animation) : List (String × EExpr) :=
  (match a.animation_delay with
   | some delay => [("animationDelay", EExpr.num (delay * 1000))]
   | none => []) ++
  (match a.animation_iteration with
   | some iteration => [("animationIterationCount", EExpr.num iteration)]
   | none => []) ++
  (match a.animation_duration with
   | some duration => [("animationDuration", EExpr.num (duration * 1000))]
   | none => []) ++
  (match a.animation_timeing_function with
   | some f => [("animationTimeingFunction", EExpr.str f)]
   | none => [])

/-- Rust `str::split` on a single-character separator, over `List Char`:
keeps empty pieces, `[]` splits to one empty piece. -/
def splitOnChar (sep : Char) : List Char → List (List Char)
  | [] => [[]]
  | c :: cs =>
    if c = sep then [] :: splitOnChar sep cs
    else (c :: (splitOnChar sep cs).headI) :: (splitOnChar sep cs).tail

/-- One resolved declaration as the injector sees it: the
`property_id().to_css_string(…)` and `value_to_css_string(…)` pair
(visitor.rs lines 628–636). -/
abbrev CssDecl := List Char × List Char

/-- The property map of the string-literal merge (visitor.rs line 621). -/
abbrev PropMap := List (List Char × List Char)

/-- `HashMap::insert`: replace the value in place when the key is present,
append otherwise. -/
def propInsert (m : PropMap) (k v : List Char) : PropMap :=
  if m.any (fun p => p.1 = k) then m.map (fun p => if p.1 = k then (k, v) else p)
  else m ++ [(k, v)]

/-- `HashMap::get`, as lookup in the association list. -/
def propLookup (m : PropMap) (k : List Char) : Option (List Char) :=
  (m.find? (fun p => p.1 = k)).map Prod.snd

/-- Seeding of the property map from the StyleRecord declarations
(visitor.rs lines 627–638). -/
def seedProperties (decls : List CssDecl) : PropMap :=
  decls.foldl (fun m d => propInsert m d.1 d.2) []

/-- Processing of one `;`-separated segment of the literal style string
(visitor.rs lines 639–647): split on `:`; only a segment with exactly two
parts contributes, all others are discarded. -/
def applySegment (m : PropMap) (s : List Char) : PropMap :=
  match splitOnChar ':' s with
  | [k, v] => propInsert m k v
  | _ => m

/-- The string-literal merge (visitor.rs lines 620–647): seed from the
declarations, then fold the literal's `;`-segments over the map. -/
def mergeStyleLiteral (decls : List CssDecl) (lit : List Char) : PropMap :=
  (splitOnChar ';' lit).foldl applySegment (seedProperties decls)

/-- Rebuilding of the style string from the merged map (visitor.rs lines
648–654): `key:value;` for every entry in iteration order. -/
def rebuildStyle (m : PropMap) : List Char :=
  m.foldl (fun acc p => acc ++ p.1 ++ ':' :: p.2 ++ [';']) []

/-- Re-parsing a style string as `;`-separated `prop:value` pairs — the
same algorithm the injector itself applies to a literal (empty seed). -/
def reparseStyle (s : List Char) : PropMap :=
  (splitOnChar ';' s).foldl applySegment []

/-- The style string built directly from the declarations when no style
attribute is present or the present one is empty (visitor.rs lines
742–761); duplicates are kept in declaration order. -/
def styleStringOfDecls (ds : List CssDecl) : List Char :=
  ds.foldl (fun acc d => acc ++ d.1 ++ ':' :: d.2 ++ [';']) []

/-- An object-literal property value: the appended values are string
literals (the re-serialized CSS text); pre-existing values are arbitrary
expressions. -/
inductive ObjVal where
  | str (s : List Char)
  | otherVal
  deriving DecidableEq, Repr

/-- A property of an object-literal style attribute (`PropOrSpread` as the
injector distinguishes it, visitor.rs lines 676–697): only a key-value
property with an identifier key is consulted by the duplicate check. -/
inductive ObjProp where
  | kvIdent (key : List Char) (value : ObjVal)
  | kvStr (key : List Char) (value : ObjVal)
  | kvOther (value : ObjVal)
  | shorthand (name : List Char)
  | spread
  deriving DecidableEq, Repr

/-- A style attribute value as the injector distinguishes them
(visitor.rs lines 614–735). -/
inductive AttrVal where
  | litStr (s : List Char)
  | litOther
  | exprEmpty
  | exprObject (props : List ObjProp)
  | exprOther
  | jsxElement
  | jsxFragment
  deriving DecidableEq, Repr

/-- A JSX attribute: identifier-named attribute, namespaced attribute
(never matched by the `style` check), or spread. -/
inductive AttrOrSpread where
  | attr (name : List Char) (value : Option AttrVal)
  | nsAttr
  | spreadAttr
  deriving DecidableEq, Repr

/-- The duplicate check of the object-literal branch (visitor.rs lines
675–698): true iff some key-value property with an identifier key equal to
the property-id exists. -/
def hasIdentKey (props : List ObjProp) (pid : List Char) : Bool :=
  props.any fun p =>
    match p with
    | ObjProp.kvIdent key _ => key = pid
    | _ => false

/-- The object-literal merge (visitor.rs lines 671–721): collect the
declarations whose property-id has no identifier-keyed duplicate in the
original object, then append them as identifier-keyed string entries. -/
def objMerge (ds : List CssDecl) (props : List ObjProp) : List ObjProp :=
  props ++ (ds.filter (fun d => ! hasIdentKey props d.1)).map
    (fun d => ObjProp.kvIdent d.1 (ObjVal.str d.2))

/-- Whether an attribute is an identifier-named `style` attribute. -/
def isStyleAttr : AttrOrSpread → Bool
  | AttrOrSpread.attr name _ => name = "style".data
  | _ => false

/-- The mutation pass of `AstMutVisitor::visit_mut_jsx_element`
(visitor.rs lines 600–789) for one element whose span is present in the
JSXRecord, given the (possibly absent) StyleRecord declaration block of its
node: first walk the attributes rewriting `style` attributes and tracking
the `has_style` / `has_empty_style` flags, then — when no usable style
attribute was found — either fill the empty `style` attribute or push a
new one built from the declarations. -/
def injectStep (decls : Option (List CssDecl))
    (acc : List AttrOrSpread × Bool × Bool) (a : AttrOrSpread) :
    List AttrOrSpread × Bool × Bool :=
  match a with
  | AttrOrSpread.attr name val =>
    if name = "style".data then
      match val with
      | some (AttrVal.litStr s) =>
        (acc.1 ++ [AttrOrSpread.attr name (some (AttrVal.litStr
            (rebuildStyle (mergeStyleLiteral
              (match decls with | some ds => ds | none => []) s))))],
         true, acc.2.2)
      | some (AttrVal.exprObject props) =>
        (acc.1 ++ [AttrOrSpread.attr name (some (AttrVal.exprObject
            (match decls with | some ds => objMerge ds props | none => props)))],
         true, acc.2.2)
      | some AttrVal.exprEmpty => (acc.1 ++ [a], false, true)
      | none => (acc.1 ++ [a], false, true)
      | some AttrVal.litOther => (acc.1 ++ [a], true, acc.2.2)
      | some AttrVal.exprOther => (acc.1 ++ [a], true, acc.2.2)
      | some AttrVal.jsxElement => (acc.1 ++ [a], true, acc.2.2)
      | some AttrVal.jsxFragment => (acc.1 ++ [a], true, acc.2.2)
    else (acc.1 ++ [a], acc.2.1, acc.2.2)
  | _ => (acc.1 ++ [a], acc.2.1, acc.2.2)

/-- See `injectStep`: the whole per-element pass. -/
def injectStyle (decls : Option (List CssDecl)) (attrs : List AttrOrSpread) :
    List AttrOrSpread :=
  let folded := attrs.foldl (injectStep decls) ([], false, false)
  if folded.2.1 = false then
    match decls with
    | some ds =>
      let style := styleStringOfDecls ds
      if folded.2.2 = true then
        folded.1.map fun a =>
          match a with
          | AttrOrSpread.attr name _ =>
            if name = "style".data then
              AttrOrSpread.attr name (some (AttrVal.litStr style))
            else a
          | _ => a
      else folded.1 ++ [AttrOrSpread.attr "style".data (some (AttrVal.litStr style))]
    | none => folded.1
  else folded.1

/-- Test for an identifier-keyed object entry with the given key. -/
def identKeyIs (pid : List Char) : ObjProp → Bool
  | ObjProp.kvIdent k _ => k = pid
  | _ => false

/-- JSX element names as the visitor distinguishes them (visitor.rs lines
74–84): a plain identifier, a member expression (carried pre-flattened by
`recursion_jsx_member` of `utils.rs`), or a namespaced name. -/
inductive JSXName where
  | ident (s : String)
  | member (s : String)
  | namespaced (ns nm : String)
  deriving DecidableEq, Repr

/-- Callee shapes of an expression-container call (visitor.rs lines
240–289): a plain identifier, `this.<member>`, or anything else (which
triggers no resolution). -/
inductive CalleeKind where
  | identCallee (name : String)
  | thisMember (name : String)
  | otherCallee
  deriving DecidableEq, Repr

mutual
/-- A markup node: JSX element (span, name, extracted attributes,
children) or fragment (span, children).  Spans stand for the source byte
ranges behind `SpanKey` (visitor.rs lines 28–42); attribute values are
carried as the flattened strings `create_element` extracts. -/
inductive JSXNode where
  | elem (span : Nat) (name : JSXName) (attrs : List (String × String))
      (children : List JSXChild)
  | frag (span : Nat) (children : List JSXChild)

/-- One child position of a markup node (visitor.rs lines 171–298): a
nested markup node, an expression container whose expression is a call, or
any other child (text, empty or non-call expression container), which
contributes nothing. -/
inductive JSXChild where
  | node (n : JSXNode)
  | exprCall (c : CalleeKind)
  | otherChild
end

/-- `scraper::Node` as stored in the tree (`scraper.rs` is not under the
provided sources; spec §3 `TreeNode`): an element with qualified name and
attributes, or a fragment with an optional name. -/
inductive Node where
  | element (name : String) (attrs : List (String × String))
  | fragment (name : Option String)
  deriving DecidableEq, Repr

/-- A built tree node of an `ego_tree::Tree`: node id (creation index
within its own tree), stored value, ordered children.  The temporary
fragment trees of cross-function resolution have their own id space. -/
inductive BNode where
  | mk (id : Nat) (val : Node) (kids : List BNode)

/-- Creation-index id of a built node. -/
def BNode.id : BNode → Nat
  | BNode.mk i _ _ => i

/-- Stored value of a built node. -/
def BNode.val : BNode → Node
  | BNode.mk _ v _ => v

/-- Children of a built node. -/
def BNode.kids : BNode → List BNode
  | BNode.mk _ _ k => k

/-- Builder state: the next free node id of the main tree and the shared
`JSXRecord` (span → node id), modelled as an association list with
`HashMap::insert` replace-in-place semantics. -/
structure VSt where
  nextId : Nat
  record : List (Nat × Nat)
  deriving DecidableEq, Repr

/-- `HashMap::insert` on the `JSXRecord`. -/
def recInsert (r : List (Nat × Nat)) (k v : Nat) : List (Nat × Nat) :=
  if r.any (fun p => p.1 = k) then r.map (fun p => if p.1 = k then (k, v) else p)
  else r ++ [(k, v)]

/-- `HashMap::get` on the `JSXRecord`. -/
def recLookup (r : List (Nat × Nat)) (k : Nat) : Option Nat :=
  (r.find? (fun p => p.1 = k)).map Prod.snd

/-- A statement of a scanned function/method body (visitor.rs lines
353–361, 377–386): a top-level `return` whose expression holds at most one
markup node, or any other statement. -/
inductive RetStmt where
  | ret (m : Option JSXNode)
  | otherStmt

/-- The module, flattened to the declarations the resolution scan reaches,
in traversal order: free function declarations and class methods (of every
class).  Declarations nested inside other function or method bodies are
not reached, because the overriding visitors do not recurse into them. -/
inductive Decl where
  | fnDecl (name : String) (body : List RetStmt)
  | classMethod (name : String) (body : List RetStmt)
  | otherDecl

/-- `SearchType` (visitor.rs lines 308–312). -/
inductive SearchType where
  | normal
  | cls
  deriving DecidableEq, Repr

/-- Modelled from the spec: `is_starts_with_uppercase` is defined in
`utils.rs`, which is not under the provided sources; per spec §4.1 it
checks whether the tag name starts with an uppercase letter. -/
def is_starts_with_uppercase (s : String) : Bool := s.front.isUpper

/-- The qualified-name string `create_element` derives from a JSX name
(visitor.rs lines 74–84). -/
def qualnameOf : JSXName → String
  | JSXName.ident s => s
  | JSXName.member s => s
  | JSXName.namespaced ns nm => ns ++ ":" ++ nm

/-- `create_element` (visitor.rs lines 73–137). -/
def createElement (name : JSXName) (attrs : List (String × String)) : Node :=
  Node.element (qualnameOf name) attrs

/-- `create_fragment` (visitor.rs lines 139–142). -/
def createFragment : Node := Node.fragment (some "__Fragment__")

/-- Source span of a markup node. -/
def JSXNode.span : JSXNode → Nat
  | JSXNode.elem sp _ _ _ => sp
  | JSXNode.frag sp _ => sp

/-- Children list of a markup node. -/
def JSXNode.childrenOf : JSXNode → List JSXChild
  | JSXNode.elem _ _ _ cs => cs
  | JSXNode.frag _ cs => cs

/-- The `Node` value the visitor stores for a markup node. -/
def JSXNode.valOf : JSXNode → Node
  | JSXNode.elem _ nm ats _ => createElement nm ats
  | JSXNode.frag _ _ => createFragment

mutual
/-- `recursion_sub_tree` (visitor.rs lines 46–51) seen from the target
tree: deep-copy a source node under the current node, assigning fresh main
ids in creation (preorder) order; no record entries are written. -/
def copyNode : BNode → Nat → BNode × Nat
  | BNode.mk _ v kids, nid =>
    let r := copyForest kids (nid + 1)
    (BNode.mk nid v r.1, r.2)

/-- See `copyNode`. -/
def copyForest : List BNode → Nat → List BNode × Nat
  | [], nid => ([], nid)
  | b :: bs, nid =>
    let rb := copyNode b nid
    let rbs := copyForest bs rb.2
    (rb.1 :: rbs.1, rbs.2)
end

/-- The per-child outcome of the first pass of
`visit_jsx_element_children` (visitor.rs lines 174–298): a directly
appended node (id assigned, record entry written, children deferred to the
second pass), a spliced forest from cross-function resolution, or
nothing. -/
inductive ItemA where
  | direct (id : Nat) (val : Node)
  | spliced (bs : List BNode)
  | skip

/-- Whether one scanned declaration matches the resolution request
(visitor.rs lines 347–395): `SearchType::Normal` matches free function
declarations by name, `SearchType::Class` matches class methods with a
plain identifier key by name. -/
def declMatches (d : Decl) (name : String) (sty : SearchType) : Option (List RetStmt) :=
  match d, sty with
  | Decl.fnDecl nm body, SearchType.normal => if nm = name then some body else none
  | Decl.classMethod nm body, SearchType.cls => if nm = name then some body else none
  | _, _ => none

mutual
/-- The root case of `visit_jsx_element` / `visit_jsx_fragment`
(visitor.rs lines 147–169): append the node under the current tree root,
record its span, then visit its children with it as current node.  `fuel`
bounds the depth of cross-function resolution only; the source recursion
is unbounded (and diverges on cyclic references). -/
def visitRootNode (fuel : Nat) (md : List Decl) (taro : List String)
    (m : JSXNode) (st : VSt) : BNode × VSt :=
  match m with
  | JSXNode.elem sp nm ats mcs =>
    let id := st.nextId
    let st1 : VSt := ⟨id + 1, recInsert st.record sp id⟩
    let r := visitChildren fuel md taro mcs st1
    (BNode.mk id (createElement nm ats) r.1, r.2)
  | JSXNode.frag sp mcs =>
    let id := st.nextId
    let st1 : VSt := ⟨id + 1, recInsert st.record sp id⟩
    let r := visitChildren fuel md taro mcs st1
    (BNode.mk id createFragment r.1, r.2)
termination_by (fuel, sizeOf m, 2)

/-- `visit_jsx_element_children` (visitor.rs lines 171–305): first pass
appends this level's nodes (and splices resolved cross-references), second
pass descends into the directly appended children. -/
def visitChildren (fuel : Nat) (md : List Decl) (taro : List String)
    (cs : List JSXChild) (st : VSt) : List BNode × VSt :=
  let pa := phaseA fuel md taro cs st
  phaseB fuel md taro cs pa.1 pa.2
termination_by (fuel, sizeOf cs, 2)

/-- First pass over the children (visitor.rs lines 174–298). -/
def phaseA (fuel : Nat) (md : List Decl) (taro : List String)
    (cs : List JSXChild) (st : VSt) : List ItemA × VSt :=
  match cs with
  | [] => ([], st)
  | c :: rest =>
    match c with
    | JSXChild.node m =>
      match m with
      | JSXNode.elem sp (JSXName.ident nm) ats mcs =>
        if is_starts_with_uppercase nm && !(taro.contains nm) then
          let sp' := resolveSplice fuel md taro nm SearchType.normal st
          let pr := phaseA fuel md taro rest sp'.2
          (ItemA.spliced sp'.1 :: pr.1, pr.2)
        else
          let id := st.nextId
          let st1 : VSt := ⟨id + 1, recInsert st.record sp id⟩
          let pr := phaseA fuel md taro rest st1
          (ItemA.direct id (createElement (JSXName.ident nm) ats) :: pr.1, pr.2)
      | JSXNode.elem sp nm ats mcs =>
        let id := st.nextId
        let st1 : VSt := ⟨id + 1, recInsert st.record sp id⟩
        let pr := phaseA fuel md taro rest st1
        (ItemA.direct id (createElement nm ats) :: pr.1, pr.2)
      | JSXNode.frag sp mcs =>
        let id := st.nextId
        let st1 : VSt := ⟨id + 1, recInsert st.record sp id⟩
        let pr := phaseA fuel md taro rest st1
        (ItemA.direct id createFragment :: pr.1, pr.2)
    | JSXChild.exprCall ck =>
      match ck with
      | CalleeKind.identCallee nm =>
        let sp' := resolveSplice fuel md taro nm SearchType.normal st
        let pr := phaseA fuel md taro rest sp'.2
        (ItemA.spliced sp'.1 :: pr.1, pr.2)
      | CalleeKind.thisMember nm =>
        let sp' := resolveSplice fuel md taro nm SearchType.cls st
        let pr := phaseA fuel md taro rest sp'.2
        (ItemA.spliced sp'.1 :: pr.1, pr.2)
      | CalleeKind.otherCallee =>
        let pr := phaseA fuel md taro rest st
        (ItemA.skip :: pr.1, pr.2)
    | JSXChild.otherChild =>
      let pr := phaseA fuel md taro rest st
      (ItemA.skip :: pr.1, pr.2)
termination_by (fuel, sizeOf cs, 1)

/-- Second pass (visitor.rs lines 299–304): descend into each directly
appended child with it as the current node. -/
def phaseB (fuel : Nat) (md : List Decl) (taro : List String)
    (cs : List JSXChild) (items : List ItemA) (st : VSt) : List BNode × VSt :=
  match cs, items with
  | [], _ => ([], st)
  | _ :: _, [] => ([], st)
  | c :: rest, it :: its =>
    match it with
    | ItemA.skip => phaseB fuel md taro rest its st
    | ItemA.spliced bs =>
      let r := phaseB fuel md taro rest its st
      (bs ++ r.1, r.2)
    | ItemA.direct id val =>
      match c with
      | JSXChild.node (JSXNode.elem sp nm ats mcs) =>
        let rk := visitChildren fuel md taro mcs st
        let rr := phaseB fuel md taro rest its rk.2
        (BNode.mk id val rk.1 :: rr.1, rr.2)
      | JSXChild.node (JSXNode.frag sp mcs) =>
        let rk := visitChildren fuel md taro mcs st
        let rr := phaseB fuel md taro rest its rk.2
        (BNode.mk id val rk.1 :: rr.1, rr.2)
      | _ => phaseB fuel md taro rest its st
termination_by (fuel, sizeOf cs, 1)

/-- One cross-function resolution (visitor.rs lines 180–193, 244–283): run
a `JSXFragmentVisitor` over the module with a fresh temporary tree (own id
space rooted at 0) but the shared record, then deep-copy the temporary
root's children into the main tree. -/
def resolveSplice (fuel : Nat) (md : List Decl) (taro : List String)
    (name : String) (sty : SearchType) (st : VSt) : List BNode × VSt :=
  match fuel with
  | 0 => ([], st)
  | f + 1 =>
    let rr := resolveDecls f md md taro name sty ⟨1, st.record⟩
    let cp := copyForest rr.1 st.nextId
    (cp.1, ⟨cp.2, rr.2.record⟩)
termination_by (fuel, 0, 0)

/-- The module scan of `JSXFragmentVisitor` (visitor.rs lines 344–396):
every declaration whose name and kind match contributes, in scan order. -/
def resolveDecls (fuel : Nat) (ds : List Decl) (md : List Decl)
    (taro : List String) (name : String) (sty : SearchType) (st : VSt) :
    List BNode × VSt :=
  match ds with
  | [] => ([], st)
  | d :: rest =>
    let rd :=
      match d with
      | Decl.fnDecl nm body =>
        match sty with
        | SearchType.normal =>
          if nm = name then resolveStmts fuel body md taro st else ([], st)
        | SearchType.cls => ([], st)
      | Decl.classMethod nm body =>
        match sty with
        | SearchType.cls =>
          if nm = name then resolveStmts fuel body md taro st else ([], st)
        | SearchType.normal => ([], st)
      | Decl.otherDecl => ([], st)
    let rr := resolveDecls fuel rest md taro name sty rd.2
    (rd.1 ++ rr.1, rr.2)
termination_by (fuel, sizeOf ds, 1)

/-- The body walk of a matching declaration (visitor.rs lines 349–364):
every top-level `return` statement holding markup appends one subtree to
the temporary root. -/
def resolveStmts (fuel : Nat) (body : List RetStmt) (md : List Decl)
    (taro : List String) (st : VSt) : List BNode × VSt :=
  match body with
  | [] => ([], st)
  | RetStmt.ret (some m) :: rest =>
    let rn := visitRootNode fuel md taro m st
    let rr := resolveStmts fuel rest md taro rn.2
    (rn.1 :: rr.1, rr.2)
  | _ :: rest => resolveStmts fuel rest md taro st
termination_by (fuel, sizeOf body, 1)
end

/-- The whole build for one source unit whose component markup is `m`
(`AstVisitor` hands the shared tree and record to a `JSXVisitor`,
visitor.rs lines 458–577): the pre-existing tree root occupies id 0, the
first markup node becomes the root of the built markup tree with id 1, the
record starts empty.  Returns the built markup root and the final
record. -/
def buildSourceTree (fuel : Nat) (md : List Decl) (taro : List String)
    (m : JSXNode) : BNode × List (Nat × Nat) :=
  let r := visitRootNode fuel md taro m ⟨1, []⟩
  (r.1, r.2.record)

/-- Whether a child element denotes a cross-component reference: an
identifier tag starting with an uppercase letter that is not a primitive
(Taro) component name. -/
def isCrossTag (taro : List String) : JSXNode → Bool
  | JSXNode.elem _ (JSXName.ident nm) _ _ =>
    is_starts_with_uppercase nm && !(taro.contains nm)
  | _ => false

mutual
/-- No cross-component references anywhere in the markup: no
uppercase-named non-primitive element child and no resolvable
call-expression container. -/
def noCrossN (taro : List String) : JSXNode → Bool
  | JSXNode.elem _ _ _ cs => noCrossC taro cs
  | JSXNode.frag _ cs => noCrossC taro cs
termination_by m => (sizeOf m, 1)

/-- See `noCrossN`. -/
def noCrossC (taro : List String) : List JSXChild → Bool
  | [] => true
  | JSXChild.node m :: rest =>
    !(isCrossTag taro m) && noCrossN taro m && noCrossC taro rest
  | JSXChild.exprCall (CalleeKind.identCallee _) :: _ => false
  | JSXChild.exprCall (CalleeKind.thisMember _) :: _ => false
  | JSXChild.exprCall CalleeKind.otherCallee :: rest => noCrossC taro rest
  | JSXChild.otherChild :: rest => noCrossC taro rest
termination_by cs => (sizeOf cs, 0)
end

/-- Number of markup children at one level. -/
def mcount : List JSXChild → Nat
  | [] => 0
  | JSXChild.node _ :: rest => mcount rest + 1
  | _ :: rest => mcount rest

/-- Spans of this level's markup children, in order. -/
def levelSpans : List JSXChild → List Nat
  | [] => []
  | JSXChild.node m :: rest => JSXNode.span m :: levelSpans rest
  | _ :: rest => levelSpans rest

/-- Spans of this level's markup children, paired with the sequential ids
the first pass assigns. -/
def specLevelPairs : List JSXChild → Nat → List (Nat × Nat)
  | [], _ => []
  | JSXChild.node m :: rest, n => (JSXNode.span m, n) :: specLevelPairs rest (n + 1)
  | _ :: rest, n => specLevelPairs rest n

/-- The first-pass items of a cross-reference-free level. -/
def itemsSpec : List JSXChild → Nat → List ItemA
  | [], _ => []
  | JSXChild.node m :: rest, n =>
    ItemA.direct n (JSXNode.valOf m) :: itemsSpec rest (n + 1)
  | _ :: rest, n => ItemA.skip :: itemsSpec rest n

mutual
/-- Closed form of `visitRootNode` on cross-reference-free markup: the
built node, the next free id, and the record entries in insertion
order. -/
def specNode (m : JSXNode) (n : Nat) : BNode × Nat × List (Nat × Nat) :=
  match m with
  | JSXNode.elem sp nm ats cs =>
    let r := specChildren cs (n + 1)
    (BNode.mk n (createElement nm ats) r.1, r.2.1, (sp, n) :: r.2.2)
  | JSXNode.frag sp cs =>
    let r := specChildren cs (n + 1)
    (BNode.mk n createFragment r.1, r.2.1, (sp, n) :: r.2.2)
termination_by (sizeOf m, 2)

/-- Closed form of `visitChildren` on a cross-reference-free level: level
ids are assigned first, descendants afterwards; record entries follow the
same order. -/
def specChildren (cs : List JSXChild) (n : Nat) : List BNode × Nat × List (Nat × Nat) :=
  let r := specB cs n (n + mcount cs)
  (r.1, r.2.1, specLevelPairs cs n ++ r.2.2)
termination_by (sizeOf cs, 1)

/-- Closed form of the second pass: `lvl` iterates over this level's
already assigned ids, `d` over the descendant id counter. -/
def specB (cs : List JSXChild) (lvl d : Nat) : List BNode × Nat × List (Nat × Nat) :=
  match cs with
  | [] => ([], d, [])
  | JSXChild.node m :: rest =>
    let rk := specKids m d
    let rr := specB rest (lvl + 1) rk.2.1
    (BNode.mk lvl (JSXNode.valOf m) rk.1 :: rr.1, rr.2.1, rk.2.2 ++ rr.2.2)
  | _ :: rest => specB rest lvl d
termination_by (sizeOf cs, 0)

/-- Children part of `specNode`. -/
def specKids (m : JSXNode) (d : Nat) : List BNode × Nat × List (Nat × Nat) :=
  match m with
  | JSXNode.elem _ _ _ cs => specChildren cs d
  | JSXNode.frag _ cs => specChildren cs d
termination_by (sizeOf m, 0)
end

mutual
/-- The record-insertion span order of a cross-reference-free build. -/
def spansN : JSXNode → List Nat
  | JSXNode.elem sp _ _ cs => sp :: spansC cs
  | JSXNode.frag sp cs => sp :: spansC cs
termination_by m => (sizeOf m, 2)

/-- See `spansN`. -/
def spansC (cs : List JSXChild) : List Nat :=
  levelSpans cs ++ descSpans cs
termination_by (sizeOf cs, 1)

/-- Descendant spans, per markup child in order. -/
def descSpans : List JSXChild → List Nat
  | [] => []
  | JSXChild.node m :: rest => spansCOfNode m ++ descSpans rest
  | _ :: rest => descSpans rest
termination_by cs => (sizeOf cs, 0)

/-- See `descSpans`. -/
def spansCOfNode : JSXNode → List Nat
  | JSXNode.elem _ _ _ cs => spansC cs
  | JSXNode.frag _ cs => spansC cs
termination_by m => (sizeOf m, 0)
end

mutual
/-- The claim-level correspondence: the built tree mirrors the markup's
shape (markup children in order, tags and node kinds equal) and the record
resolves every markup node's span to exactly the id of the node built from
it. -/
def treeMatchN (r : List (Nat × Nat)) : JSXNode → BNode → Bool
  | JSXNode.elem sp nm ats cs, BNode.mk i v kids =>
    (v == createElement nm ats) && (recLookup r sp == some i)
      && treeMatchC r cs kids
  | JSXNode.frag sp cs, BNode.mk i v kids =>
    (v == createFragment) && (recLookup r sp == some i)
      && treeMatchC r cs kids
termination_by m b => sizeOf m + sizeOf b

/-- See `treeMatchN`. -/
def treeMatchC (r : List (Nat × Nat)) : List JSXChild → List BNode → Bool
  | [], bs => bs.isEmpty
  | JSXChild.node _ :: _, [] => false
  | JSXChild.node m :: rest, b :: bs => treeMatchN r m b && treeMatchC r rest bs
  | _ :: rest, bs => treeMatchC r rest bs
termination_by cs bs => sizeOf cs + sizeOf bs
end

/-- Sequential record insertion of a pair list. -/
def recInsertAll (r : List (Nat × Nat)) (ps : List (Nat × Nat)) : List (Nat × Nat) :=
  ps.foldl (fun r p => recInsert r p.1 p.2) r

mutual
/-- Shape-only correspondence between markup and built nodes (tag names,
node kinds, markup children in order), ignoring ids and record. -/
def shapeN : JSXNode → BNode → Bool
  | JSXNode.elem _ nm ats cs, BNode.mk _ v kids =>
    (v == createElement nm ats) && shapeC cs kids
  | JSXNode.frag _ cs, BNode.mk _ v kids =>
    (v == createFragment) && shapeC cs kids
termination_by m b => sizeOf m + sizeOf b

/-- See `shapeN`. -/
def shapeC : List JSXChild → List BNode → Bool
  | [], bs => bs.isEmpty
  | JSXChild.node _ :: _, [] => false
  | JSXChild.node m :: rest, b :: bs => shapeN m b && shapeC rest bs
  | _ :: rest, bs => shapeC rest bs
termination_by cs bs => sizeOf cs + sizeOf bs
end

/-- Pairwise shape correspondence of a markup forest and a built forest. -/
def shapeForest : List JSXNode → List BNode → Bool
  | [], [] => true
  | m :: ms, b :: bs => shapeN m b && shapeForest ms bs
  | _, _ => false

/-- The markup nodes of a body's top-level `return` statements, in
order. -/
def returnsOf : List RetStmt → List JSXNode
  | [] => []
  | RetStmt.ret (some m) :: rest => m :: returnsOf rest
  | RetStmt.ret none :: rest => returnsOf rest
  | RetStmt.otherStmt :: rest => returnsOf rest

/-- All return markups the module scan collects for one resolution
request: every matching declaration contributes every one of its top-level
return markups, in scan order. -/
def matchingReturns : List Decl → String → SearchType → List JSXNode
  | [], _, _ => []
  | d :: rest, name, sty =>
    (match declMatches d name sty with
     | some body => returnsOf body
     | none => []) ++ matchingReturns rest name sty

theorem baseEntries_no_name (a : Animation) :
    "animationName" ∉ (Animation.baseEntries a).map Prod.fst := by
  unfold Animation.baseEntries
  rcases a.animation_delay with _ | d <;>
    rcases a.animation_iteration with _ | i <;>
      rcases a.animation_duration with _ | u <;>
        rcases a.animation_timeing_function with _ | f <;>
          simp

/-- C1 (counterexample): the claim states that a millisecond time lowers to
the source time multiplied by 60; on the code, `animation-duration: 1ms`
lowers to the numeric value 60000 (stored as `1 × 60` by the constructor
and multiplied by 1000 at emission), and `60000 ≠ 60`. -/
theorem c1_millisecond_counterexample :
    (Animation.fromProp "animation" (Property.animationDuration [Time.milliseconds 1]) none).map
        Animation.to_expr
      = some (PropertyTuple.array [("animationDuration", EExpr.num 60000)])
    ∧ (60000 : ℚ) ≠ 60 := by
  refine ⟨?_, by norm_num⟩
  show some (Animation.to_expr _) = _
  unfold Animation.to_expr
  norm_num [Animation.fromProp, Animation.storeTime]

/-- C1 (amended): for an `animation-duration` or `animation-delay`
declaration the Harmony lowering emits the source time multiplied by 1000
when given in seconds, and multiplied by 60000 (60 at construction, 1000 at
emission) when given in milliseconds. -/
theorem c1_duration_delay_lowering (id : String) (s m : ℚ) (kf : Option KeyframeTable) :
    ((Animation.fromProp id (Property.animationDuration [Time.seconds s]) kf).map
        Animation.to_expr
      = some (PropertyTuple.array [("animationDuration", EExpr.num (s * 1000))]))
    ∧ ((Animation.fromProp id (Property.animationDuration [Time.milliseconds m]) kf).map
        Animation.to_expr
      = some (PropertyTuple.array [("animationDuration", EExpr.num (m * 60 * 1000))]))
    ∧ ((Animation.fromProp id (Property.animationDelay [Time.seconds s]) kf).map
        Animation.to_expr
      = some (PropertyTuple.array [("animationDelay", EExpr.num (s * 1000))]))
    ∧ ((Animation.fromProp id (Property.animationDelay [Time.milliseconds m]) kf).map
        Animation.to_expr
      = some (PropertyTuple.array [("animationDelay", EExpr.num (m * 60 * 1000))])) := by
  refine ⟨?_, ?_, ?_, ?_⟩ <;>
    simp [Animation.fromProp, Animation.storeTime, Animation.to_expr]

/-- C8: when the animation name resolves in the keyframe table the Harmony
lowering appends one ordered `{percentage, event}` array entry per keyframe
item; when it does not resolve (absent table or missing key) no
animation-name field is emitted while the present duration/delay/iteration/
timing entries are still emitted. -/
theorem c8_animation_name_resolution (a : Animation) (name : String)
    (h : a.animation_name = some name) :
    ("animationName" ∉ (Animation.baseEntries a).map Prod.fst)
    ∧ (a.keyframes = none → a.to_expr = PropertyTuple.array (Animation.baseEntries a))
    ∧ (∀ table, a.keyframes = some table → kfLookup table name = none →
        a.to_expr = PropertyTuple.array (Animation.baseEntries a))
    ∧ (∀ table items, a.keyframes = some table → kfLookup table name = some items →
        a.to_expr = PropertyTuple.array
          (Animation.baseEntries a ++ [("animationName", keyframeArray items)])) := by
  refine ⟨baseEntries_no_name a, ?_, ?_, ?_⟩
  · intro hk
    unfold Animation.to_expr Animation.baseEntries
    rw [h, hk]
    simp
  · intro table hk hl
    unfold Animation.to_expr Animation.baseEntries
    rw [h, hk]
    simp [hl]
  · intro table items hk hl
    unfold Animation.to_expr Animation.baseEntries
    rw [h, hk]
    simp [hl]

/-- Witness for `c8_animation_name_resolution` at a concrete animation
whose name is `spin`, duration 2s, with a keyframe table that does not
contain `spin`. -/
theorem c8_animation_name_resolution_witness :
    (({ id := "animation", keyframes := some [("other", [])],
        animation_name := some "spin", animation_duration := some 2,
        animation_delay := none, animation_iteration := none,
        animation_timeing_function := none } : Animation).animation_name = some "spin")
    ∧ (({ id := "animation", keyframes := some [("other", [])],
          animation_name := some "spin", animation_duration := some 2,
          animation_delay := none, animation_iteration := none,
          animation_timeing_function := none } : Animation).to_expr
        = PropertyTuple.array [("animationDuration", EExpr.num 2000)]) :=
  ⟨rfl,
    ((c8_animation_name_resolution
        { id := "animation", keyframes := some [("other", [])],
          animation_name := some "spin", animation_duration := some 2,
          animation_delay := none, animation_iteration := none,
          animation_timeing_function := none } "spin" rfl).2.2.1
      [("other", [])] rfl rfl).trans (by norm_num [Animation.baseEntries])⟩

/-- C2: at the failing input — a `box-shadow` whose required fields are all
absent (any non-`box-shadow` property tag, or an empty layer list) — the
React-Native lowering panics (`Option::unwrap` on `None`, modelled as
`none`) instead of producing an explicit invalid marker, while the Harmony
lowering emits an object under the single `boxShadow` key that simply
omits every absent field.  The second pair of conjuncts isolates the
color-absent case of the claim. -/
theorem c2_rn_absent_field_panics :
    (BoxShadow.to_rn_expr (BoxShadow.fromProp "boxShadow" Property.otherProp) = none
     ∧ BoxShadow.to_expr (BoxShadow.fromProp "boxShadow" Property.otherProp)
         = PropertyTuple.one "boxShadow" (EExpr.object []))
    ∧ (BoxShadow.to_rn_expr
         { id := "boxShadow", offset_x := some (Length.value ⟨"px", 1⟩),
           offset_y := some (Length.value ⟨"px", 2⟩),
           blur_radius := some (Length.value ⟨"px", 3⟩),
           color := none, inset := some false } = none
       ∧ BoxShadow.to_expr
           { id := "boxShadow", offset_x := some (Length.value ⟨"px", 1⟩),
             offset_y := some (Length.value ⟨"px", 2⟩),
             blur_radius := some (Length.value ⟨"px", 3⟩),
             color := none, inset := some false }
         = PropertyTuple.one "boxShadow"
             (EExpr.object
               [("offsetX", EExpr.num 1), ("offsetY", EExpr.num 2),
                ("radius", EExpr.num 3), ("fill", EExpr.bool false)])) :=
  ⟨⟨rfl, rfl⟩, ⟨rfl, rfl⟩⟩

/-- C9 (counterexample): for the size property family (`width`/`height`),
`auto` lowers on Harmony to the literal string `"auto"`, not to the invalid
marker the claim requires. -/
theorem c9_size_auto_counterexample :
    (SizeProperty.fromProp "width" (Property.sizeProp SizeValue.autoKw)).to_expr
      = PropertyTuple.one "width" (EExpr.str "auto")
    ∧ (SizeProperty.fromProp "width" (Property.sizeProp SizeValue.autoKw)).to_expr
      ≠ PropertyTuple.one "width" EExpr.invalid := by
  refine ⟨rfl, ?_⟩
  intro h
  have h' : PropertyTuple.one "width" (EExpr.str "auto")
      = PropertyTuple.one "width" EExpr.invalid := h
  injection h' with h1 h2
  exact EExpr.noConfusion h2

/-- C9 (amended): `auto` on the length-value property family lowers to the
invalid marker on Harmony and to the string `"auto"` on React Native; on
the size property family it lowers to the string `"auto"` on both
platforms. -/
theorem c9_auto_lowering (id : String) :
    ((LengthValueProperty.fromProp id
        (Property.lengthValueProp LengthPercentageOrAuto.auto)).to_expr
      = PropertyTuple.one id EExpr.invalid)
    ∧ ((LengthValueProperty.fromProp id
          (Property.lengthValueProp LengthPercentageOrAuto.auto)).to_rn_expr
        = PropertyTuple.one id (EExpr.str "auto"))
    ∧ ((SizeProperty.fromProp id (Property.sizeProp SizeValue.autoKw)).to_expr
        = PropertyTuple.one id (EExpr.str "auto"))
    ∧ ((SizeProperty.fromProp id (Property.sizeProp SizeValue.autoKw)).to_rn_expr
        = PropertyTuple.one id (EExpr.str "auto")) :=
  ⟨rfl, rfl, rfl, rfl⟩

/-- C10: a `;`-segment of the literal style attribute whose text does not
split on `:` into exactly two parts contributes nothing to the merged
property map, at whatever position in the literal it occurs. -/
theorem c10_malformed_segment_dropped (decls : List CssDecl)
    (segs1 segs2 : List (List Char)) (s : List Char)
    (h : (splitOnChar ':' s).length ≠ 2) :
    (segs1 ++ s :: segs2).foldl applySegment (seedProperties decls)
      = (segs1 ++ segs2).foldl applySegment (seedProperties decls) := by
  have hs : ∀ m : PropMap, applySegment m s = m := by
    intro m
    unfold applySegment
    rcases hsp : splitOnChar ':' s with _ | ⟨a, _ | ⟨b, _ | ⟨c, rest⟩⟩⟩ <;>
      simp_all
  rw [List.foldl_append, List.foldl_append]
  simp [hs]

/-- Witness for `c10_malformed_segment_dropped`: a URL-valued declaration
(two colons) and a colon-free fragment are both discarded. -/
theorem c10_malformed_segment_dropped_witness :
    ((splitOnChar ':' "background:url(http://a)".data).length ≠ 2)
    ∧ (["color:red".data] ++ "background:url(http://a)".data :: ["margin:0".data]).foldl
        applySegment (seedProperties [])
      = (["color:red".data] ++ ["margin:0".data]).foldl applySegment (seedProperties []) :=
  ⟨by decide, c10_malformed_segment_dropped [] _ _ _ (by decide)⟩

/-- C5 (counterexample): a declaration whose property-id is present in the
object only as a string-literal key (`"height": …`) is not dropped — the
duplicate check consults identifier keys only, so injection appends a
second `height` entry. -/
theorem c5_string_key_counterexample :
    injectStyle (some [("height".data, "10px".data)])
        [AttrOrSpread.attr "style".data
          (some (AttrVal.exprObject [ObjProp.kvStr "height".data (ObjVal.str "1".data)]))]
      = [AttrOrSpread.attr "style".data
          (some (AttrVal.exprObject
            [ObjProp.kvStr "height".data (ObjVal.str "1".data),
             ObjProp.kvIdent "height".data (ObjVal.str "10px".data)]))]
    ∧ injectStyle (some [("height".data, "10px".data)])
        [AttrOrSpread.attr "style".data
          (some (AttrVal.exprObject [ObjProp.kvStr "height".data (ObjVal.str "1".data)]))]
      ≠ [AttrOrSpread.attr "style".data
          (some (AttrVal.exprObject [ObjProp.kvStr "height".data (ObjVal.str "1".data)]))] := by
  constructor
  · rfl
  · decide

theorem hasIdentKey_append (props rest : List ObjProp) (pid : List Char) :
    hasIdentKey (props ++ rest) pid = (hasIdentKey props pid || hasIdentKey rest pid) := by
  simp [hasIdentKey, List.any_append]

theorem objMerge_self_stable (ds : List CssDecl) (props : List ObjProp) :
    objMerge ds (objMerge ds props) = objMerge ds props := by
  unfold objMerge
  have hall : ∀ d ∈ ds, hasIdentKey
      (props ++ (ds.filter (fun d => ! hasIdentKey props d.1)).map
        (fun d => ObjProp.kvIdent d.1 (ObjVal.str d.2))) d.1 = true := by
    intro d hd
    rw [hasIdentKey_append]
    by_cases hk : hasIdentKey props d.1
    · simp [hk]
    · have : ObjProp.kvIdent d.1 (ObjVal.str d.2) ∈
          (ds.filter (fun d => ! hasIdentKey props d.1)).map
            (fun d => ObjProp.kvIdent d.1 (ObjVal.str d.2)) := by
        refine List.mem_map.mpr ⟨d, ?_, rfl⟩
        exact List.mem_filter.mpr ⟨hd, by simp [hk]⟩
      have hrest : hasIdentKey
          ((ds.filter (fun d => ! hasIdentKey props d.1)).map
            (fun d => ObjProp.kvIdent d.1 (ObjVal.str d.2))) d.1 = true := by
        unfold hasIdentKey
        refine List.any_eq_true.mpr ⟨_, this, by simp⟩
      simp [hrest]
  have hfilter : ds.filter (fun d => ! hasIdentKey
      (props ++ (ds.filter (fun d => ! hasIdentKey props d.1)).map
        (fun d => ObjProp.kvIdent d.1 (ObjVal.str d.2))) d.1) = [] := by
    rw [List.filter_eq_nil_iff]
    intro d hd
    simp [hall d hd]
  rw [hfilter]
  simp

theorem injectStep_nonstyle (decls : Option (List CssDecl))
    (acc : List AttrOrSpread × Bool × Bool) (a : AttrOrSpread)
    (ha : isStyleAttr a = false) :
    injectStep decls acc a = (acc.1 ++ [a], acc.2.1, acc.2.2) := by
  rcases a with ⟨name, val⟩ | _ | _ <;> simp_all [isStyleAttr, injectStep]

theorem foldl_injectStep_nonstyle (decls : Option (List CssDecl))
    (L : List AttrOrSpread) (hL : ∀ a ∈ L, isStyleAttr a = false) :
    ∀ acc : List AttrOrSpread × Bool × Bool,
      L.foldl (injectStep decls) acc = (acc.1 ++ L, acc.2.1, acc.2.2) := by
  induction L with
  | nil => intro acc; simp
  | cons a L ih =>
    intro acc
    rw [List.foldl_cons, injectStep_nonstyle decls acc a (hL a (by simp))]
    rw [ih (fun x hx => hL x (by simp [hx]))]
    simp

/-- The one-pass effect of the injector on an element whose only `style`
attribute is an object literal. -/
theorem injectStyle_object (ds : List CssDecl) (props : List ObjProp)
    (l r : List AttrOrSpread)
    (hl : ∀ a ∈ l, isStyleAttr a = false) (hr : ∀ a ∈ r, isStyleAttr a = false) :
    injectStyle (some ds)
        (l ++ AttrOrSpread.attr "style".data (some (AttrVal.exprObject props)) :: r)
      = l ++ AttrOrSpread.attr "style".data
          (some (AttrVal.exprObject (objMerge ds props))) :: r := by
  unfold injectStyle
  rw [List.foldl_append, foldl_injectStep_nonstyle (some ds) l hl]
  rw [List.foldl_cons]
  have hstyle : injectStep (some ds) (([] ++ l : List AttrOrSpread), false, false)
      (AttrOrSpread.attr "style".data (some (AttrVal.exprObject props)))
      = (l ++ [AttrOrSpread.attr "style".data
          (some (AttrVal.exprObject (objMerge ds props)))], true, false) := by
    simp [injectStep]
  rw [hstyle, foldl_injectStep_nonstyle (some ds) r hr]
  simp

/-- C5 (amended): for an element whose style attribute is an object
literal, injection replaces that attribute by the object extended with the
declarations whose property-id does not occur as an identifier key
(string-literal, computed, shorthand and spread keys are not consulted);
every entry present before injection is still present afterward, unchanged
and in place; entries whose identifier key already occurs gain no sibling
(such declarations are dropped); and running the injector a second time
with the same declarations changes nothing. -/
theorem c5_object_literal_injection (ds : List CssDecl) (props : List ObjProp)
    (l r : List AttrOrSpread)
    (hl : ∀ a ∈ l, isStyleAttr a = false) (hr : ∀ a ∈ r, isStyleAttr a = false) :
    (injectStyle (some ds)
        (l ++ AttrOrSpread.attr "style".data (some (AttrVal.exprObject props)) :: r)
      = l ++ AttrOrSpread.attr "style".data
          (some (AttrVal.exprObject (objMerge ds props))) :: r)
    ∧ (objMerge ds props).take props.length = props
    ∧ (∀ pid, hasIdentKey props pid = true →
        (objMerge ds props).filter (identKeyIs pid) = props.filter (identKeyIs pid))
    ∧ injectStyle (some ds) (injectStyle (some ds)
        (l ++ AttrOrSpread.attr "style".data (some (AttrVal.exprObject props)) :: r))
      = injectStyle (some ds)
        (l ++ AttrOrSpread.attr "style".data (some (AttrVal.exprObject props)) :: r) := by
  refine ⟨injectStyle_object ds props l r hl hr, ?_, ?_, ?_⟩
  · unfold objMerge
    simp
  · intro pid hpid
    unfold objMerge
    rw [List.filter_append]
    have happ : ((ds.filter (fun d => ! hasIdentKey props d.1)).map
        (fun d => ObjProp.kvIdent d.1 (ObjVal.str d.2))).filter (identKeyIs pid) = [] := by
      rw [List.filter_eq_nil_iff]
      intro p hp
      rcases List.mem_map.mp hp with ⟨d, hd, rfl⟩
      have hdk : hasIdentKey props d.1 = false := by
        have := (List.mem_filter.mp hd).2
        simpa using this
      intro hcontra
      have hk : d.1 = pid := by simpa [identKeyIs] using hcontra
      rw [hk] at hdk
      rw [hdk] at hpid
      exact Bool.false_ne_true hpid
    rw [happ, List.append_nil]
  · rw [injectStyle_object ds props l r hl hr]
    rw [injectStyle_object ds (objMerge ds props) l r hl hr]
    rw [objMerge_self_stable]

/-- Witness for `c5_object_literal_injection`: one surrounding non-style
attribute, an object with an identifier `color` key, declarations hitting
and missing that key. -/
theorem c5_object_literal_injection_witness :
    (∀ a ∈ [AttrOrSpread.attr "id".data (some (AttrVal.litStr "x".data))],
        isStyleAttr a = false)
    ∧ (∀ a ∈ ([] : List AttrOrSpread), isStyleAttr a = false)
    ∧ (objMerge [("color".data, "red".data), ("margin".data, "0".data)]
        [ObjProp.kvIdent "color".data ObjVal.otherVal]).take 1
      = [ObjProp.kvIdent "color".data ObjVal.otherVal] :=
  ⟨by decide, by decide,
   (c5_object_literal_injection [("color".data, "red".data), ("margin".data, "0".data)]
     [ObjProp.kvIdent "color".data ObjVal.otherVal]
     [AttrOrSpread.attr "id".data (some (AttrVal.litStr "x".data))] []
     (by decide) (by decide)).2.1⟩

theorem splitOnChar_of_not_mem {sep : Char} {s : List Char} (h : sep ∉ s) :
    splitOnChar sep s = [s] := by
  induction s with
  | nil => rfl
  | cons c cs ih =>
    have hc : ¬ c = sep := fun hcc => h (hcc ▸ List.mem_cons_self c cs)
    have hcs : sep ∉ cs := fun hm => h (List.mem_cons_of_mem c hm)
    unfold splitOnChar
    rw [if_neg hc, ih hcs]
    simp

theorem splitOnChar_append_sep {sep : Char} {a : List Char} (b : List Char)
    (h : sep ∉ a) : splitOnChar sep (a ++ sep :: b) = a :: splitOnChar sep b := by
  induction a with
  | nil => simp [splitOnChar]
  | cons c a' ih =>
    have hc : ¬ c = sep := fun hcc => h (hcc ▸ List.mem_cons_self c a')
    have ha' : sep ∉ a' := fun hm => h (List.mem_cons_of_mem c hm)
    show splitOnChar sep (c :: (a' ++ sep :: b)) = (c :: a') :: splitOnChar sep b
    unfold splitOnChar
    rw [if_neg hc, ih ha']
    simp
    cases b <;> rfl

theorem splitOnChar_length (sep : Char) (s : List Char) :
    (splitOnChar sep s).length = s.count sep + 1 := by
  induction s with
  | nil => rfl
  | cons c cs ih =>
    unfold splitOnChar
    by_cases hc : c = sep
    · subst hc
      simp [ih, List.count_cons]
    · rw [if_neg hc]
      rcases hcs : splitOnChar sep cs with _ | ⟨a, rest⟩
      · have := congrArg List.length hcs
        rw [ih] at this
        simp at this
      · rw [hcs] at ih
        simp only [List.length_cons] at ih ⊢
        rw [List.count_cons]
        simp only [List.headI, List.tail, List.length_cons]
        simp [hc]
        omega

theorem splitOnChar_sep_not_mem {sep : Char} {s p : List Char}
    (hp : p ∈ splitOnChar sep s) : sep ∉ p := by
  induction s generalizing p with
  | nil =>
    simp only [splitOnChar, List.mem_singleton] at hp
    subst hp; simp
  | cons c cs ih =>
    unfold splitOnChar at hp
    by_cases hc : c = sep
    · rw [if_pos hc] at hp
      rcases List.mem_cons.mp hp with h0 | h0
      · subst h0; simp
      · exact ih h0
    · rw [if_neg hc] at hp
      rcases hcs : splitOnChar sep cs with _ | ⟨a, rest⟩
      · exact absurd hcs (by
          intro hh
          have := congrArg List.length hh
          rw [splitOnChar_length] at this
          simp at this)
      · rw [hcs] at hp
        simp only [List.headI, List.tail] at hp
        rcases List.mem_cons.mp hp with h0 | h0
        · subst h0
          intro hmem
          rcases List.mem_cons.mp hmem with h1 | h1
          · exact hc h1.symm
          · exact ih (hcs ▸ List.mem_cons_self a rest) h1
        · exact ih (hcs ▸ List.mem_cons_of_mem a h0)

theorem mem_of_mem_splitOnChar {sep x : Char} {s p : List Char}
    (hx : x ∈ p) (hp : p ∈ splitOnChar sep s) : x ∈ s := by
  induction s generalizing p with
  | nil =>
    simp only [splitOnChar, List.mem_singleton] at hp
    subst hp; simp at hx
  | cons c cs ih =>
    unfold splitOnChar at hp
    by_cases hc : c = sep
    · rw [if_pos hc] at hp
      rcases List.mem_cons.mp hp with h0 | h0
      · subst h0; simp at hx
      · exact List.mem_cons_of_mem c (ih hx h0)
    · rw [if_neg hc] at hp
      rcases hcs : splitOnChar sep cs with _ | ⟨a, rest⟩
      · exact absurd hcs (by
          intro hh
          have := congrArg List.length hh
          rw [splitOnChar_length] at this
          simp at this)
      · rw [hcs] at hp
        simp only [List.headI, List.tail] at hp
        rcases List.mem_cons.mp hp with h0 | h0
        · subst h0
          rcases List.mem_cons.mp hx with h1 | h1
          · exact h1 ▸ List.mem_cons_self c cs
          · exact List.mem_cons_of_mem c
              (ih h1 (hcs ▸ List.mem_cons_self a rest))
        · exact List.mem_cons_of_mem c (ih hx (hcs ▸ List.mem_cons_of_mem a h0))

theorem propLookup_propInsert_self (m : PropMap) (k v : List Char) :
    propLookup (propInsert m k v) k = some v := by
  unfold propInsert
  by_cases h : m.any (fun p => p.1 = k)
  · rw [if_pos h]
    induction m with
    | nil => simp at h
    | cons p m' ih =>
      by_cases hp : p.1 = k
      · simp [propLookup, List.find?, hp]
      · have h' : m'.any (fun p => p.1 = k) := by
          rcases List.any_eq_true.mp h with ⟨q, hq, hqk⟩
          rcases List.mem_cons.mp hq with h0 | h0
          · exact absurd (of_decide_eq_true (h0 ▸ hqk)) hp
          · exact List.any_eq_true.mpr ⟨q, h0, hqk⟩
        simp only [List.map_cons, if_neg hp]
        rw [propLookup] at ih ⊢
        simp only [List.find?]
        rw [show (decide (p.1 = k)) = false from decide_eq_false hp]
        exact ih h'
  · rw [if_neg h]
    induction m with
    | nil => simp [propLookup, List.find?]
    | cons p m' ih =>
      have hp : ¬ p.1 = k := by
        intro hpk
        exact h (List.any_eq_true.mpr ⟨p, List.mem_cons_self p m', decide_eq_true hpk⟩)
      have h' : ¬ m'.any (fun p => p.1 = k) := by
        intro hany
        rcases List.any_eq_true.mp hany with ⟨q, hq, hqk⟩
        exact h (List.any_eq_true.mpr ⟨q, List.mem_cons_of_mem p hq, hqk⟩)
      simp only [List.cons_append]
      rw [propLookup] at ih ⊢
      simp only [List.find?]
      rw [show (decide (p.1 = k)) = false from decide_eq_false hp]
      exact ih h'

theorem propLookup_cons (p : List Char × List Char) (m : PropMap) (k : List Char) :
    propLookup (p :: m) k = if p.1 = k then some p.2 else propLookup m k := by
  rw [propLookup, propLookup]
  simp only [List.find?]
  by_cases h : p.1 = k
  · rw [if_pos h, show (decide (p.1 = k)) = true from decide_eq_true h]
    rfl
  · rw [if_neg h, show (decide (p.1 = k)) = false from decide_eq_false h]

theorem propLookup_propInsert_ne (m : PropMap) (k v : List Char) {k' : List Char}
    (hne : k' ≠ k) : propLookup (propInsert m k v) k' = propLookup m k' := by
  unfold propInsert
  by_cases h : m.any (fun p => p.1 = k)
  · rw [if_pos h]
    clear h
    induction m with
    | nil => rfl
    | cons p m' ih =>
      simp only [List.map_cons]
      by_cases hp : p.1 = k
      · rw [if_pos hp, propLookup_cons, propLookup_cons]
        rw [if_neg (show ¬ (k, v).1 = k' from fun hc => hne hc.symm)]
        rw [if_neg (show ¬ p.1 = k' from fun hc => hne (hc ▸ hp : k' = k))]
        exact ih
      · rw [if_neg hp, propLookup_cons, propLookup_cons]
        by_cases hpk' : p.1 = k'
        · rw [if_pos hpk', if_pos hpk']
        · rw [if_neg hpk', if_neg hpk']
          exact ih
  · rw [if_neg h]
    induction m with
    | nil =>
      simp only [List.nil_append]
      rw [propLookup_cons]
      rw [if_neg (show ¬ (k, v).1 = k' from fun hc => hne hc.symm)]
    | cons p m' ih =>
      have h' : ¬ m'.any (fun p => p.1 = k) := by
        intro hany
        rcases List.any_eq_true.mp hany with ⟨q, hq, hqk⟩
        exact h (List.any_eq_true.mpr ⟨q, List.mem_cons_of_mem p hq, hqk⟩)
      simp only [List.cons_append]
      rw [propLookup_cons, propLookup_cons]
      by_cases hpk' : p.1 = k'
      · rw [if_pos hpk', if_pos hpk']
      · rw [if_neg hpk', if_neg hpk']
        exact ih h'

theorem mem_propInsert {m : PropMap} {k v : List Char} {p : List Char × List Char}
    (hp : p ∈ propInsert m k v) : p ∈ m ∨ p = (k, v) := by
  unfold propInsert at hp
  by_cases h : m.any (fun q => q.1 = k)
  · rw [if_pos h] at hp
    rcases List.mem_map.mp hp with ⟨q, hq, hqe⟩
    by_cases hqk : q.1 = k
    · right; rw [← hqe]; simp [hqk]
    · left; rw [← hqe]; simpa [hqk] using hq
  · rw [if_neg h] at hp
    rcases List.mem_append.mp hp with h0 | h0
    · exact Or.inl h0
    · exact Or.inr (List.mem_singleton.mp h0)

theorem propKeys_propInsert_nodup {m : PropMap} {k v : List Char}
    (hm : (m.map Prod.fst).Nodup) : ((propInsert m k v).map Prod.fst).Nodup := by
  unfold propInsert
  by_cases h : m.any (fun q => q.1 = k)
  · rw [if_pos h]
    have : (m.map (fun p => if p.1 = k then (k, v) else p)).map Prod.fst
        = m.map Prod.fst := by
      rw [List.map_map]
      apply List.map_congr_left
      intro p _
      by_cases hp : p.1 = k <;> simp [hp]
    rw [this]
    exact hm
  · rw [if_neg h]
    rw [List.map_append]
    simp only [List.map_cons, List.map_nil]
    rw [List.nodup_append]
    refine ⟨hm, List.nodup_singleton k, ?_⟩
    intro a ha hb
    rw [List.mem_singleton] at hb
    subst hb
    rcases List.mem_map.mp ha with ⟨q, hq, hqe⟩
    exact h (List.any_eq_true.mpr ⟨q, hq, decide_eq_true hqe⟩)

theorem propLookup_mem {m : PropMap} {k v : List Char}
    (h : propLookup m k = some v) : (k, v) ∈ m := by
  unfold propLookup at h
  rcases hf : m.find? (fun p => p.1 = k) with _ | p
  · rw [hf] at h; exact absurd h (by simp)
  · rw [hf] at h
    simp only [Option.map_some'] at h
    have hmem := List.mem_of_find?_eq_some hf
    have hpred := List.find?_some hf
    have hk : p.1 = k := of_decide_eq_true hpred
    have hv : p.2 = v := Option.some.inj h
    have : p = (k, v) := Prod.ext hk hv
    exact this ▸ hmem

/-- Segments that do not split into exactly two parts are no-ops on the
property map. -/
theorem applySegment_invalid {s : List Char} (m : PropMap)
    (h : (splitOnChar ':' s).length ≠ 2) : applySegment m s = m := by
  unfold applySegment
  rcases hsp : splitOnChar ':' s with _ | ⟨a, _ | ⟨b, _ | ⟨c, rest⟩⟩⟩ <;> simp_all

theorem applySegment_valid {s k v : List Char} (m : PropMap)
    (h : splitOnChar ':' s = [k, v]) : applySegment m s = propInsert m k v := by
  unfold applySegment
  rw [h]

/-- The seeded fold and the empty-seeded fold of the same segments agree on
every key the segments write; on other keys the seeded fold preserves the
seed. -/
theorem foldl_applySegment_lookup (segs : List (List Char)) (m0 : PropMap)
    (k : List Char) :
    propLookup (segs.foldl applySegment m0) k
      = match propLookup (segs.foldl applySegment []) k with
        | some v => some v
        | none => propLookup m0 k := by
  induction segs generalizing m0 with
  | nil =>
    simp only [List.foldl_nil]
    rcases h : propLookup ([] : PropMap) k with _ | v
    · rfl
    · exact absurd h (by rw [propLookup]; simp [List.find?])
  | cons s rest ih =>
    simp only [List.foldl_cons]
    rcases hsp : splitOnChar ':' s with _ | ⟨a, _ | ⟨b, _ | ⟨c, tl⟩⟩⟩
    · rw [applySegment_invalid m0
          (by rw [hsp]; simp only [List.length_nil, List.length_cons]; omega),
        applySegment_invalid ([] : PropMap)
          (by rw [hsp]; simp only [List.length_nil, List.length_cons]; omega)]
      exact ih m0
    · rw [applySegment_invalid m0
          (by rw [hsp]; simp only [List.length_nil, List.length_cons]; omega),
        applySegment_invalid ([] : PropMap)
          (by rw [hsp]; simp only [List.length_nil, List.length_cons]; omega)]
      exact ih m0
    case cons.cons.cons.cons =>
      rw [applySegment_invalid m0
          (by rw [hsp]; simp only [List.length_nil, List.length_cons]; omega),
        applySegment_invalid ([] : PropMap)
          (by rw [hsp]; simp only [List.length_nil, List.length_cons]; omega)]
      exact ih m0
    rw [applySegment_valid m0 hsp, applySegment_valid ([] : PropMap) hsp]
    rw [ih (propInsert m0 a b), ih (propInsert [] a b)]
    rcases hr : propLookup (rest.foldl applySegment []) k with _ | v
    · by_cases hk : k = a
      · subst hk
        rw [propLookup_propInsert_self, propLookup_propInsert_self]
      · rw [propLookup_propInsert_ne m0 a b hk, propLookup_propInsert_ne [] a b hk]
        rw [show propLookup ([] : PropMap) k = none from rfl]
    · rfl

theorem propAny_iff (m : PropMap) (k : List Char) :
    m.any (fun p => p.1 = k) = true ↔ k ∈ m.map Prod.fst := by
  rw [List.any_eq_true]
  constructor
  · rintro ⟨p, hp, hpk⟩
    exact List.mem_map.mpr ⟨p, hp, of_decide_eq_true hpk⟩
  · intro h
    rcases List.mem_map.mp h with ⟨p, hp, hpk⟩
    exact ⟨p, hp, decide_eq_true hpk⟩

theorem keys_propInsert_notmem {m : PropMap} {k : List Char} (v : List Char)
    (h : k ∉ m.map Prod.fst) :
    (propInsert m k v).map Prod.fst = m.map Prod.fst ++ [k] := by
  unfold propInsert
  rw [if_neg (fun ha => h ((propAny_iff m k).mp ha))]
  simp

theorem mem_foldl_propInsert {decls : List CssDecl} {m0 : PropMap}
    {p : List Char × List Char}
    (hp : p ∈ decls.foldl (fun m d => propInsert m d.1 d.2) m0) :
    p ∈ m0 ∨ p ∈ decls := by
  induction decls generalizing m0 with
  | nil => exact Or.inl (by simpa using hp)
  | cons d rest ih =>
    simp only [List.foldl_cons] at hp
    rcases ih hp with h0 | h0
    · rcases mem_propInsert h0 with h1 | h1
      · exact Or.inl h1
      · exact Or.inr (by simp [h1])
    · exact Or.inr (List.mem_cons_of_mem d h0)

theorem mem_seedProperties {decls : List CssDecl} {p : List Char × List Char}
    (hp : p ∈ seedProperties decls) : p ∈ decls := by
  rcases mem_foldl_propInsert hp with h0 | h0
  · simp at h0
  · exact h0

theorem mem_foldl_applySegment {segs : List (List Char)} {m0 : PropMap}
    {p : List Char × List Char} (hp : p ∈ segs.foldl applySegment m0) :
    p ∈ m0 ∨ ∃ s ∈ segs, splitOnChar ':' s = [p.1, p.2] := by
  induction segs generalizing m0 with
  | nil => exact Or.inl (by simpa using hp)
  | cons s rest ih =>
    simp only [List.foldl_cons] at hp
    by_cases hlen : (splitOnChar ':' s).length = 2
    · rcases hsp : splitOnChar ':' s with _ | ⟨a, _ | ⟨b, _ | ⟨c, tl⟩⟩⟩ <;>
        rw [hsp] at hlen <;> simp at hlen
      rw [applySegment_valid m0 hsp] at hp
      rcases ih hp with h0 | ⟨s', hs', he⟩
      · rcases mem_propInsert h0 with h1 | h1
        · exact Or.inl h1
        · right
          exact ⟨s, List.mem_cons_self s rest, by rw [hsp, h1]⟩
      · exact Or.inr ⟨s', List.mem_cons_of_mem s hs', he⟩
    · rw [applySegment_invalid m0 hlen] at hp
      rcases ih hp with h0 | ⟨s', hs', he⟩
      · exact Or.inl h0
      · exact Or.inr ⟨s', List.mem_cons_of_mem s hs', he⟩

theorem nodup_foldl_applySegment (segs : List (List Char)) {m0 : PropMap}
    (h : (m0.map Prod.fst).Nodup) :
    (((segs.foldl applySegment m0)).map Prod.fst).Nodup := by
  induction segs generalizing m0 with
  | nil => simpa using h
  | cons s rest ih =>
    simp only [List.foldl_cons]
    apply ih
    by_cases hlen : (splitOnChar ':' s).length = 2
    · rcases hsp : splitOnChar ':' s with _ | ⟨a, _ | ⟨b, _ | ⟨c, tl⟩⟩⟩ <;>
        rw [hsp] at hlen <;> simp at hlen
      rw [applySegment_valid m0 hsp]
      exact propKeys_propInsert_nodup h
    · rw [applySegment_invalid m0 hlen]
      exact h

theorem nodup_seedProperties (decls : List CssDecl) :
    ((seedProperties decls).map Prod.fst).Nodup := by
  unfold seedProperties
  suffices hgen : ∀ m0 : PropMap, (m0.map Prod.fst).Nodup →
      ((decls.foldl (fun m d => propInsert m d.1 d.2) m0).map Prod.fst).Nodup by
    exact hgen [] (by simp)
  induction decls with
  | nil => intro m0 h; simpa using h
  | cons d rest ih =>
    intro m0 h
    simp only [List.foldl_cons]
    exact ih _ (propKeys_propInsert_nodup h)

/-- The split of a well-formed `key:value` segment. -/
theorem seg_split {a b : List Char} (ha : ':' ∉ a) (hb : ':' ∉ b) :
    splitOnChar ':' (a ++ ':' :: b) = [a, b] := by
  rw [splitOnChar_append_sep b ha, splitOnChar_of_not_mem hb]

/-- A `key:value` segment whose key or value contains a further colon does
not split into two parts. -/
theorem seg_invalid {a b : List Char} (h : ':' ∈ a ∨ ':' ∈ b) :
    (splitOnChar ':' (a ++ ':' :: b)).length ≠ 2 := by
  rw [splitOnChar_length]
  have hcnt : (a ++ ':' :: b).count ':' = a.count ':' + (b.count ':' + 1) := by
    rw [List.count_append, List.count_cons]
    simp
  rw [hcnt]
  rcases h with h | h
  · have h1 : 0 < a.count ':' := List.count_pos_iff.mpr h
    omega
  · have h1 : 0 < b.count ':' := List.count_pos_iff.mpr h
    omega

theorem rebuildStyle_eq_flatten (m : PropMap) :
    rebuildStyle m = (m.map fun p => p.1 ++ ':' :: p.2 ++ [';']).flatten := by
  unfold rebuildStyle
  suffices hgen : ∀ acc : List Char,
      m.foldl (fun acc p => acc ++ p.1 ++ ':' :: p.2 ++ [';']) acc
        = acc ++ (m.map fun p => p.1 ++ ':' :: p.2 ++ [';']).flatten by
    simpa using hgen []
  induction m with
  | nil => intro acc; simp
  | cons p rest ih =>
    intro acc
    simp only [List.foldl_cons, List.map_cons, List.flatten_cons]
    rw [ih]
    simp [List.append_assoc]

theorem splitOnChar_rebuild {m : PropMap}
    (hfree : ∀ p ∈ m, ';' ∉ p.1 ∧ ';' ∉ p.2) :
    splitOnChar ';' (rebuildStyle m) = (m.map fun p => p.1 ++ ':' :: p.2) ++ [[]] := by
  rw [rebuildStyle_eq_flatten]
  induction m with
  | nil => rfl
  | cons p rest ih =>
    simp only [List.map_cons, List.flatten_cons]
    have hsemi : ';' ∉ p.1 ++ ':' :: p.2 := by
      intro hmem
      rcases List.mem_append.mp hmem with h0 | h0
      · exact (hfree p (List.mem_cons_self p rest)).1 h0
      · rcases List.mem_cons.mp h0 with h1 | h1
        · exact absurd h1 (by decide)
        · exact (hfree p (List.mem_cons_self p rest)).2 h1
    have hshape : (p.1 ++ ':' :: p.2 ++ [';'])
          ++ (rest.map fun p => p.1 ++ ':' :: p.2 ++ [';']).flatten
        = (p.1 ++ ':' :: p.2) ++ ';'
          :: (rest.map fun p => p.1 ++ ':' :: p.2 ++ [';']).flatten := by
      simp [List.append_assoc]
    rw [hshape, splitOnChar_append_sep _ hsemi]
    rw [ih (fun q hq => hfree q (List.mem_cons_of_mem p hq))]
    rfl

/-- Folding segments built from entries whose keys avoid `k` does not
change the lookup at `k`. -/
theorem foldl_entries_lookup_skip (m : PropMap) (k : List Char)
    (hk : k ∉ m.map Prod.fst) :
    ∀ acc : PropMap,
      propLookup ((m.map fun p => p.1 ++ ':' :: p.2).foldl applySegment acc) k
        = propLookup acc k := by
  induction m with
  | nil => intro acc; rfl
  | cons q m' ih =>
    intro acc
    have hkq : k ≠ q.1 := by
      intro hc
      exact hk (by simp [hc.symm])
    have hk' : k ∉ m'.map Prod.fst := fun hc => hk (List.mem_cons_of_mem _ hc)
    simp only [List.map_cons, List.foldl_cons]
    by_cases hq : ':' ∈ q.1 ∨ ':' ∈ q.2
    · rw [applySegment_invalid acc (seg_invalid hq)]
      exact ih hk' acc
    · push_neg at hq
      rw [applySegment_valid acc (seg_split hq.1 hq.2)]
      rw [ih hk' _]
      exact propLookup_propInsert_ne acc q.1 q.2 hkq

/-- Folding the segments of a key-unique entry list over any
suitably-disjoint accumulator recovers each colon-free entry. -/
theorem foldl_entries_lookup (m : PropMap) :
    ∀ acc : PropMap, (acc.map Prod.fst ++ m.map Prod.fst).Nodup →
    ∀ k v : List Char, propLookup m k = some v → ':' ∉ k → ':' ∉ v →
      propLookup ((m.map fun p => p.1 ++ ':' :: p.2).foldl applySegment acc) k
        = some v := by
  induction m with
  | nil =>
    intro acc hnd k v hkv hck hcv
    exact absurd hkv (by rw [propLookup]; simp [List.find?])
  | cons p m' ih =>
    intro acc hnd k v hkv hck hcv
    simp only [List.map_cons, List.foldl_cons]
    by_cases hp : p.1 = k
    · have hv : v = p.2 := by
        rw [propLookup_cons, if_pos hp] at hkv
        exact (Option.some.inj hkv).symm
      subst hv
      have hpk : ':' ∉ p.1 := hp ▸ hck
      rw [applySegment_valid acc (seg_split hpk hcv)]
      have hknotm' : k ∉ m'.map Prod.fst := by
        have hmid : (m'.map Prod.fst).Nodup ∧ p.1 ∉ m'.map Prod.fst := by
          have h1 := (List.nodup_append.mp hnd).2.1
          simp only [List.map_cons, List.nodup_cons] at h1
          exact ⟨h1.2, h1.1⟩
        exact hp ▸ hmid.2
      rw [foldl_entries_lookup_skip m' k hknotm' _]
      exact hp ▸ propLookup_propInsert_self acc p.1 p.2
    · have hkv' : propLookup m' k = some v := by
        rw [propLookup_cons, if_neg hp] at hkv
        exact hkv
      by_cases hq : ':' ∈ p.1 ∨ ':' ∈ p.2
      · rw [applySegment_invalid acc (seg_invalid hq)]
        apply ih acc _ k v hkv' hck hcv
        have hsub : (acc.map Prod.fst ++ m'.map Prod.fst).Sublist
            (acc.map Prod.fst ++ (p :: m').map Prod.fst) := by
          apply List.Sublist.append_left
          simp only [List.map_cons]
          exact List.sublist_cons_self _ _
        exact hnd.sublist hsub
      · push_neg at hq
        rw [applySegment_valid acc (seg_split hq.1 hq.2)]
        apply ih (propInsert acc p.1 p.2) _ k v hkv' hck hcv
        have hp1 : p.1 ∉ acc.map Prod.fst := by
          have := List.disjoint_of_nodup_append hnd
          intro hc
          exact this hc (by simp)
        rw [keys_propInsert_notmem p.2 hp1]
        have : acc.map Prod.fst ++ [p.1] ++ m'.map Prod.fst
            = acc.map Prod.fst ++ (p :: m').map Prod.fst := by
          simp [List.append_assoc]
        rw [this]
        exact hnd

/-- Round trip: rebuilding the property map into a style string and
re-parsing it recovers every colon-free entry of a key-unique,
semicolon-free map. -/
theorem reparse_rebuild_lookup {m : PropMap}
    (hnodup : (m.map Prod.fst).Nodup)
    (hfree : ∀ p ∈ m, ';' ∉ p.1 ∧ ';' ∉ p.2)
    {k v : List Char} (hkv : propLookup m k = some v)
    (hck : ':' ∉ k) (hcv : ':' ∉ v) :
    propLookup (reparseStyle (rebuildStyle m)) k = some v := by
  unfold reparseStyle
  rw [splitOnChar_rebuild hfree, List.foldl_append]
  simp only [List.foldl_cons, List.foldl_nil]
  rw [applySegment_invalid _ (by decide)]
  exact foldl_entries_lookup m [] (by simpa using hnodup) k v hkv hck hcv

/-- C4 (amended): when no StyleRecord declaration key or value contains a
`;`, re-parsing the rewritten string-literal style attribute reproduces,
for every key present in the original literal, the literal's merged value
verbatim (the literal wins over the stylesheet on every key collision). -/
theorem c4_literal_merge (decls : List CssDecl) (lit : List Char)
    (hd : ∀ d ∈ decls, ';' ∉ d.1 ∧ ';' ∉ d.2) :
    ∀ k v : List Char, propLookup (reparseStyle lit) k = some v →
      propLookup (reparseStyle (rebuildStyle (mergeStyleLiteral decls lit))) k
        = some v := by
  intro k v hlit
  have hm_nodup : ((mergeStyleLiteral decls lit).map Prod.fst).Nodup := by
    unfold mergeStyleLiteral
    exact nodup_foldl_applySegment _ (nodup_seedProperties decls)
  have hmem : (k, v) ∈ reparseStyle lit := propLookup_mem hlit
  have hseg : ∃ s ∈ splitOnChar ';' lit, splitOnChar ':' s = [k, v] := by
    rcases mem_foldl_applySegment hmem with h0 | h0
    · simp at h0
    · exact h0
  rcases hseg with ⟨s, hs, hsp⟩
  have hck : ':' ∉ k :=
    splitOnChar_sep_not_mem (show k ∈ splitOnChar ':' s by rw [hsp]; simp)
  have hcv : ':' ∉ v :=
    splitOnChar_sep_not_mem (show v ∈ splitOnChar ':' s by rw [hsp]; simp)
  have hfree : ∀ p ∈ mergeStyleLiteral decls lit, ';' ∉ p.1 ∧ ';' ∉ p.2 := by
    intro p hp
    rcases mem_foldl_applySegment hp with h0 | ⟨s', hs', hsp'⟩
    · exact hd p (mem_seedProperties h0)
    · have hs'free : ';' ∉ s' := splitOnChar_sep_not_mem hs'
      constructor
      · intro hc
        exact hs'free (mem_of_mem_splitOnChar hc (by rw [hsp']; simp))
      · intro hc
        exact hs'free (mem_of_mem_splitOnChar hc (by rw [hsp']; simp))
  have hmk : propLookup (mergeStyleLiteral decls lit) k = some v := by
    unfold mergeStyleLiteral
    rw [foldl_applySegment_lookup _ (seedProperties decls) k]
    have hlit' : propLookup ((splitOnChar ';' lit).foldl applySegment []) k
        = some v := hlit
    rw [hlit']
  exact reparse_rebuild_lookup hm_nodup hfree hmk hck hcv

/-- Witness for `c4_literal_merge`: the literal `color:red` over a
stylesheet `color:green` — the literal wins and survives the round
trip. -/
theorem c4_literal_merge_witness :
    (∀ d ∈ ([("color".data, "green".data)] : List CssDecl), ';' ∉ d.1 ∧ ';' ∉ d.2)
    ∧ propLookup (reparseStyle "color:red".data) "color".data = some "red".data
    ∧ propLookup (reparseStyle (rebuildStyle (mergeStyleLiteral
        [("color".data, "green".data)] "color:red".data))) "color".data
      = some "red".data :=
  ⟨by decide, by decide,
   c4_literal_merge [("color".data, "green".data)] "color:red".data (by decide)
     "color".data "red".data (by decide)⟩

/-- C4 (counterexample): with a stylesheet value that itself contains a
semicolon (`background: x;color:blue`) colliding on `color` with the
literal `color:red`, re-parsing the rewritten attribute gives `color ↦
blue`, not the literal's `red`: the claim's unqualified round-trip
guarantee fails on the code. -/
theorem c4_semicolon_counterexample :
    propLookup (reparseStyle "color:red".data) "color".data = some "red".data
    ∧ propLookup (reparseStyle (rebuildStyle (mergeStyleLiteral
        [("color".data, "green".data), ("background".data, "x;color:blue".data)]
        "color:red".data))) "color".data = some "blue".data
    ∧ ("blue".data : List Char) ≠ "red".data :=
  ⟨by decide, by decide, by decide⟩

theorem recInsertAll_append (r : List (Nat × Nat)) (a b : List (Nat × Nat)) :
    recInsertAll r (a ++ b) = recInsertAll (recInsertAll r a) b := by
  unfold recInsertAll
  rw [List.foldl_append]

theorem recInsertAll_cons (r : List (Nat × Nat)) (p : Nat × Nat) (ps : List (Nat × Nat)) :
    recInsertAll r (p :: ps) = recInsertAll (recInsert r p.1 p.2) ps := rfl

theorem recAny_iff (r : List (Nat × Nat)) (k : Nat) :
    r.any (fun p => p.1 = k) = true ↔ k ∈ r.map Prod.fst := by
  rw [List.any_eq_true]
  constructor
  · rintro ⟨p, hp, hpk⟩
    exact List.mem_map.mpr ⟨p, hp, of_decide_eq_true hpk⟩
  · intro h
    rcases List.mem_map.mp h with ⟨p, hp, hpk⟩
    exact ⟨p, hp, decide_eq_true hpk⟩

theorem recInsert_fresh {r : List (Nat × Nat)} {k : Nat} (v : Nat)
    (h : k ∉ r.map Prod.fst) : recInsert r k v = r ++ [(k, v)] := by
  unfold recInsert
  rw [if_neg (fun ha => h ((recAny_iff r k).mp ha))]

theorem recInsertAll_fresh {r ps : List (Nat × Nat)}
    (h : (r.map Prod.fst ++ ps.map Prod.fst).Nodup) :
    recInsertAll r ps = r ++ ps := by
  induction ps generalizing r with
  | nil => simp [recInsertAll]
  | cons p rest ih =>
    rw [recInsertAll_cons]
    have hk : p.1 ∉ r.map Prod.fst := by
      have hd := List.disjoint_of_nodup_append h
      intro hc
      exact hd hc (by simp)
    rw [recInsert_fresh p.2 hk]
    have h' : ((r ++ [(p.1, p.2)]).map Prod.fst ++ rest.map Prod.fst).Nodup := by
      have : (r ++ [(p.1, p.2)]).map Prod.fst ++ rest.map Prod.fst
          = r.map Prod.fst ++ (p :: rest).map Prod.fst := by
        simp
      rw [this]
      exact h
    rw [ih h']
    simp

theorem recLookup_cons (p : Nat × Nat) (r : List (Nat × Nat)) (k : Nat) :
    recLookup (p :: r) k = if p.1 = k then some p.2 else recLookup r k := by
  rw [recLookup, recLookup]
  simp only [List.find?]
  by_cases h : p.1 = k
  · rw [if_pos h, show (decide (p.1 = k)) = true from decide_eq_true h]
    rfl
  · rw [if_neg h, show (decide (p.1 = k)) = false from decide_eq_false h]

theorem recLookup_mem_nodup {r : List (Nat × Nat)} (hnd : (r.map Prod.fst).Nodup)
    {k v : Nat} (hm : (k, v) ∈ r) : recLookup r k = some v := by
  induction r with
  | nil => simp at hm
  | cons p rest ih =>
    rw [recLookup_cons]
    rcases List.mem_cons.mp hm with h0 | h0
    · rw [← h0]
      simp
    · have hk : p.1 ≠ k := by
        intro hc
        have : k ∈ rest.map Prod.fst := List.mem_map.mpr ⟨(k, v), h0, rfl⟩
        simp only [List.map_cons, List.nodup_cons] at hnd
        exact hnd.1 (hc ▸ this)
      rw [if_neg hk]
      exact ih (by simp only [List.map_cons, List.nodup_cons] at hnd; exact hnd.2) h0

theorem specLevelPairs_keys (cs : List JSXChild) (n : Nat) :
    (specLevelPairs cs n).map Prod.fst = levelSpans cs := by
  induction cs generalizing n with
  | nil => rfl
  | cons c rest ih =>
    cases c with
    | node m => simp [specLevelPairs, levelSpans, ih]
    | exprCall ck => simp [specLevelPairs, levelSpans, ih]
    | otherChild => simp [specLevelPairs, levelSpans, ih]

mutual
theorem specNode_keys (m : JSXNode) (n : Nat) :
    ((specNode m n).2.2).map Prod.fst = spansN m := by
  cases m with
  | elem sp nm ats cs =>
    unfold specNode spansN
    simp [specChildren_keys cs (n + 1)]
  | frag sp cs =>
    unfold specNode spansN
    simp [specChildren_keys cs (n + 1)]
termination_by (sizeOf m, 2)

theorem specChildren_keys (cs : List JSXChild) (n : Nat) :
    ((specChildren cs n).2.2).map Prod.fst = spansC cs := by
  unfold specChildren spansC
  simp [specLevelPairs_keys, specB_keys cs n (n + mcount cs)]
termination_by (sizeOf cs, 1)

theorem specB_keys (cs : List JSXChild) (lvl d : Nat) :
    ((specB cs lvl d).2.2).map Prod.fst = descSpans cs := by
  cases cs with
  | nil => simp [specB, descSpans]
  | cons c rest =>
    cases c with
    | node m =>
      unfold specB descSpans
      simp [specKids_keys m d, specB_keys rest (lvl + 1) (specKids m d).2.1]
    | exprCall ck =>
      unfold specB descSpans
      exact specB_keys rest lvl d
    | otherChild =>
      unfold specB descSpans
      exact specB_keys rest lvl d
termination_by (sizeOf cs, 0)

theorem specKids_keys (m : JSXNode) (d : Nat) :
    ((specKids m d).2.2).map Prod.fst = spansCOfNode m := by
  cases m with
  | elem sp nm ats cs =>
    unfold specKids spansCOfNode
    exact specChildren_keys cs d
  | frag sp cs =>
    unfold specKids spansCOfNode
    exact specChildren_keys cs d
termination_by (sizeOf m, 0)
end

theorem phaseA_spec (fuel : Nat) (md : List Decl) (taro : List String) :
    ∀ (cs : List JSXChild) (n : Nat) (r : List (Nat × Nat)),
    noCrossC taro cs = true →
    phaseA fuel md taro cs ⟨n, r⟩
      = (itemsSpec cs n, ⟨n + mcount cs, recInsertAll r (specLevelPairs cs n)⟩) := by
  intro cs
  induction cs with
  | nil =>
    intro n r _
    simp [phaseA, itemsSpec, mcount, specLevelPairs, recInsertAll]
  | cons c rest ih =>
    intro n r h
    cases c with
    | node m =>
      cases m with
      | elem sp nm ats mcs =>
        cases nm with
        | ident s =>
          have hparts := h
          simp only [noCrossC, Bool.and_eq_true] at hparts
          have hcond : (is_starts_with_uppercase s && !(taro.contains s)) = false := by
            have h1 := hparts.1.1
            rw [Bool.not_eq_true'] at h1
            simpa [isCrossTag] using h1
          simp only [phaseA, hcond, Bool.false_eq_true, if_false]
          rw [ih (n + 1) (recInsert r sp n) hparts.2]
          simp only [itemsSpec, mcount, specLevelPairs, JSXNode.span, JSXNode.valOf,
            recInsertAll_cons]
          rw [show n + 1 + mcount rest = n + (mcount rest + 1) from by omega]
        | member s =>
          have hparts := h
          simp only [noCrossC, Bool.and_eq_true] at hparts
          simp only [phaseA]
          rw [ih (n + 1) (recInsert r sp n) hparts.2]
          simp only [itemsSpec, mcount, specLevelPairs, JSXNode.span, JSXNode.valOf,
            recInsertAll_cons]
          rw [show n + 1 + mcount rest = n + (mcount rest + 1) from by omega]
        | namespaced ns nm' =>
          have hparts := h
          simp only [noCrossC, Bool.and_eq_true] at hparts
          simp only [phaseA]
          rw [ih (n + 1) (recInsert r sp n) hparts.2]
          simp only [itemsSpec, mcount, specLevelPairs, JSXNode.span, JSXNode.valOf,
            recInsertAll_cons]
          rw [show n + 1 + mcount rest = n + (mcount rest + 1) from by omega]
      | frag sp mcs =>
        have hparts := h
        simp only [noCrossC, Bool.and_eq_true] at hparts
        simp only [phaseA]
        rw [ih (n + 1) (recInsert r sp n) hparts.2]
        simp only [itemsSpec, mcount, specLevelPairs, JSXNode.span, JSXNode.valOf,
          recInsertAll_cons]
        rw [show n + 1 + mcount rest = n + (mcount rest + 1) from by omega]
    | exprCall ck =>
      cases ck with
      | identCallee nm => simp [noCrossC] at h
      | thisMember nm => simp [noCrossC] at h
      | otherCallee =>
        have h' : noCrossC taro rest = true := by
          simpa [noCrossC] using h
        simp only [phaseA]
        rw [ih n r h']
        simp [itemsSpec, mcount, specLevelPairs]
    | otherChild =>
      have h' : noCrossC taro rest = true := by
        simpa [noCrossC] using h
      simp only [phaseA]
      rw [ih n r h']
      simp [itemsSpec, mcount, specLevelPairs]

theorem noCrossN_childrenOf (taro : List String) (m : JSXNode) :
    noCrossN taro m = noCrossC taro (JSXNode.childrenOf m) := by
  cases m <;> simp [noCrossN, JSXNode.childrenOf]

theorem spansCOfNode_eq (m : JSXNode) :
    spansCOfNode m = spansC (JSXNode.childrenOf m) := by
  cases m <;> simp [spansCOfNode, JSXNode.childrenOf]

theorem specKids_eq (m : JSXNode) (d : Nat) :
    specKids m d = specChildren (JSXNode.childrenOf m) d := by
  cases m <;> simp [specKids, JSXNode.childrenOf]

theorem visitChildren_spec :
    ∀ (K : Nat) (cs : List JSXChild), sizeOf cs ≤ K →
    ∀ (fuel : Nat) (md : List Decl) (taro : List String) (n : Nat)
      (r : List (Nat × Nat)),
    noCrossC taro cs = true →
    visitChildren fuel md taro cs ⟨n, r⟩
      = ((specChildren cs n).1,
         ⟨(specChildren cs n).2.1, recInsertAll r (specChildren cs n).2.2⟩) := by
  intro K
  induction K with
  | zero =>
    intro cs hsz
    exact absurd hsz (by cases cs <;> simp)
  | succ K ihK =>
    intro cs hsz fuel md taro n r hnc
    have hB : ∀ (cs' : List JSXChild), sizeOf cs' ≤ K + 1 →
        ∀ (lvl d : Nat) (r' : List (Nat × Nat)), noCrossC taro cs' = true →
        phaseB fuel md taro cs' (itemsSpec cs' lvl) ⟨d, r'⟩
          = ((specB cs' lvl d).1,
             ⟨(specB cs' lvl d).2.1, recInsertAll r' (specB cs' lvl d).2.2⟩) := by
      intro cs'
      induction cs' with
      | nil =>
        intro _ lvl d r' _
        simp [phaseB, specB, itemsSpec, recInsertAll]
      | cons c rest ihrest =>
        intro hsz' lvl d r' hnc'
        cases c with
        | node m =>
          have hparts := hnc'
          simp only [noCrossC, Bool.and_eq_true] at hparts
          have hnm : noCrossC taro (JSXNode.childrenOf m) = true := by
            rw [← noCrossN_childrenOf]
            exact hparts.1.2
          have hszm : sizeOf (JSXNode.childrenOf m) ≤ K := by
            cases m <;> (simp [JSXNode.childrenOf] at hsz' ⊢) <;> omega
          have hszrest : sizeOf rest ≤ K + 1 := by
            simp at hsz'
            omega
          cases m with
          | elem sp nm ats mcs =>
            simp only [itemsSpec, JSXNode.valOf, phaseB]
            rw [ihK mcs (by simpa [JSXNode.childrenOf] using hszm) fuel md taro d r'
                (by simpa [JSXNode.childrenOf] using hnm)]
            rw [ihrest hszrest (lvl + 1) (specChildren mcs d).2.1
                (recInsertAll r' (specChildren mcs d).2.2) hparts.2]
            simp only [specB, specKids]
            rw [recInsertAll_append]
            simp [JSXNode.valOf]
          | frag sp mcs =>
            simp only [itemsSpec, JSXNode.valOf, phaseB]
            rw [ihK mcs (by simpa [JSXNode.childrenOf] using hszm) fuel md taro d r'
                (by simpa [JSXNode.childrenOf] using hnm)]
            rw [ihrest hszrest (lvl + 1) (specChildren mcs d).2.1
                (recInsertAll r' (specChildren mcs d).2.2) hparts.2]
            simp only [specB, specKids]
            rw [recInsertAll_append]
            simp [JSXNode.valOf]
        | exprCall ck =>
          cases ck with
          | identCallee nm => simp [noCrossC] at hnc'
          | thisMember nm => simp [noCrossC] at hnc'
          | otherCallee =>
            have h' : noCrossC taro rest = true := by simpa [noCrossC] using hnc'
            have hszrest : sizeOf rest ≤ K + 1 := by simp at hsz'; omega
            simp only [itemsSpec, phaseB, specB]
            exact ihrest hszrest lvl d r' h'
        | otherChild =>
          have h' : noCrossC taro rest = true := by simpa [noCrossC] using hnc'
          have hszrest : sizeOf rest ≤ K + 1 := by simp at hsz'; omega
          simp only [itemsSpec, phaseB, specB]
          exact ihrest hszrest lvl d r' h'
    simp only [visitChildren]
    rw [phaseA_spec fuel md taro cs n r hnc]
    rw [hB cs hsz n (n + mcount cs) (recInsertAll r (specLevelPairs cs n)) hnc]
    simp only [specChildren]
    rw [recInsertAll_append]

theorem visitRootNode_spec (fuel : Nat) (md : List Decl) (taro : List String)
    (m : JSXNode) (n : Nat) (r : List (Nat × Nat))
    (hnc : noCrossN taro m = true) :
    visitRootNode fuel md taro m ⟨n, r⟩
      = ((specNode m n).1,
         ⟨(specNode m n).2.1, recInsertAll r (specNode m n).2.2⟩) := by
  cases m with
  | elem sp nm ats cs =>
    have hnc' : noCrossC taro cs = true := by simpa [noCrossN] using hnc
    simp only [visitRootNode]
    rw [visitChildren_spec (sizeOf cs) cs le_rfl fuel md taro (n + 1)
        (recInsert r sp n) hnc']
    simp only [specNode, recInsertAll_cons]
  | frag sp cs =>
    have hnc' : noCrossC taro cs = true := by simpa [noCrossN] using hnc
    simp only [visitRootNode]
    rw [visitChildren_spec (sizeOf cs) cs le_rfl fuel md taro (n + 1)
        (recInsert r sp n) hnc']
    simp only [specNode, recInsertAll_cons]

mutual
theorem specNode_match (m : JSXNode) (n : Nat) (R : List (Nat × Nat))
    (h : ∀ p ∈ (specNode m n).2.2, recLookup R p.1 = some p.2) :
    treeMatchN R m (specNode m n).1 = true := by
  cases m with
  | elem sp nm ats cs =>
    simp only [specNode] at h ⊢
    simp only [treeMatchN, Bool.and_eq_true]
    refine ⟨⟨by simp, ?_⟩, ?_⟩
    · have := h (sp, n) (by simp)
      simp [this]
    · exact specChildren_match cs (n + 1) R
        (fun p hp => h p (by simp [hp]))
  | frag sp cs =>
    simp only [specNode] at h ⊢
    simp only [treeMatchN, Bool.and_eq_true]
    refine ⟨⟨by simp, ?_⟩, ?_⟩
    · have := h (sp, n) (by simp)
      simp [this]
    · exact specChildren_match cs (n + 1) R
        (fun p hp => h p (by simp [hp]))
termination_by (sizeOf m, 2)

theorem specChildren_match (cs : List JSXChild) (n : Nat) (R : List (Nat × Nat))
    (h : ∀ p ∈ (specChildren cs n).2.2, recLookup R p.1 = some p.2) :
    treeMatchC R cs (specChildren cs n).1 = true := by
  simp only [specChildren] at h ⊢
  exact specB_match cs n (n + mcount cs) R
    (fun p hp => h p (by simp [hp]))
    (fun p hp => h p (by simp [hp]))
termination_by (sizeOf cs, 1)

theorem specB_match (cs : List JSXChild) (lvl d : Nat) (R : List (Nat × Nat))
    (hl : ∀ p ∈ specLevelPairs cs lvl, recLookup R p.1 = some p.2)
    (hd : ∀ p ∈ (specB cs lvl d).2.2, recLookup R p.1 = some p.2) :
    treeMatchC R cs (specB cs lvl d).1 = true := by
  cases cs with
  | nil => simp [specB, treeMatchC]
  | cons c rest =>
    cases c with
    | node m =>
      simp only [specB]
      cases m with
      | elem sp nm ats mcs =>
        simp only [treeMatchC, Bool.and_eq_true]
        constructor
        · simp only [treeMatchN, Bool.and_eq_true]
          refine ⟨⟨by simp [JSXNode.valOf], ?_⟩, ?_⟩
          · have := hl (sp, lvl) (by simp [specLevelPairs, JSXNode.span])
            simp [this]
          · have hkids : (specKids (JSXNode.elem sp nm ats mcs) d).1
                = (specChildren mcs d).1 := by simp [specKids]
            rw [hkids]
            have := specChildren_match mcs d R
              (fun p hp => hd p (by
                simp only [specB, List.mem_append]
                left
                simpa [specKids] using hp))
            simpa [specKids] using this
        · exact specB_match rest (lvl + 1) (specKids (JSXNode.elem sp nm ats mcs) d).2.1 R
            (fun p hp => hl p (by simp [specLevelPairs, JSXNode.span, hp]))
            (fun p hp => hd p (by simp [specB, hp]))
      | frag sp mcs =>
        simp only [treeMatchC, Bool.and_eq_true]
        constructor
        · simp only [treeMatchN, Bool.and_eq_true]
          refine ⟨⟨by simp [JSXNode.valOf], ?_⟩, ?_⟩
          · have := hl (sp, lvl) (by simp [specLevelPairs, JSXNode.span])
            simp [this]
          · have hkids : (specKids (JSXNode.frag sp mcs) d).1
                = (specChildren mcs d).1 := by simp [specKids]
            rw [hkids]
            have := specChildren_match mcs d R
              (fun p hp => hd p (by
                simp only [specB, List.mem_append]
                left
                simpa [specKids] using hp))
            simpa [specKids] using this
        · exact specB_match rest (lvl + 1) (specKids (JSXNode.frag sp mcs) d).2.1 R
            (fun p hp => hl p (by simp [specLevelPairs, JSXNode.span, hp]))
            (fun p hp => hd p (by simp [specB, hp]))
    | exprCall ck =>
      simp only [specB, treeMatchC]
      exact specB_match rest lvl d R
        (fun p hp => hl p (by simp [specLevelPairs, hp]))
        (fun p hp => hd p (by simp [specB, hp]))
    | otherChild =>
      simp only [specB, treeMatchC]
      exact specB_match rest lvl d R
        (fun p hp => hl p (by simp [specLevelPairs, hp]))
        (fun p hp => hd p (by simp [specB, hp]))
termination_by (sizeOf cs, 0)
end

/-- C3: for markup with no cross-component references (and distinct source
spans), the built SourceTree mirrors the markup exactly — same markup
children in order, same tag names and node kinds — the first markup node
is the root of the built tree (id 1, directly under the pre-existing
container root), and the JSXRecord holds exactly one entry per markup
node, mapping its span to the id of the node built from it. -/
theorem c3_source_tree_shape (fuel : Nat) (md : List Decl) (taro : List String)
    (m : JSXNode)
    (h1 : noCrossN taro m = true) (h2 : (spansN m).Nodup) :
    treeMatchN (buildSourceTree fuel md taro m).2 m
        (buildSourceTree fuel md taro m).1 = true
    ∧ ((buildSourceTree fuel md taro m).2).map Prod.fst = spansN m
    ∧ (buildSourceTree fuel md taro m).1.id = 1 := by
  unfold buildSourceTree
  rw [visitRootNode_spec fuel md taro m 1 [] h1]
  have hkeys : ((specNode m 1).2.2).map Prod.fst = spansN m := specNode_keys m 1
  have hfresh : recInsertAll [] (specNode m 1).2.2 = [] ++ (specNode m 1).2.2 := by
    apply recInsertAll_fresh
    simpa [hkeys] using h2
  simp only [hfresh, List.nil_append]
  refine ⟨?_, by rw [hkeys], ?_⟩
  · apply specNode_match
    intro p hp
    apply recLookup_mem_nodup
    · rw [hkeys]
      exact h2
    · exact hp
  · cases m <;> simp [specNode, BNode.id]

/-- Witness for `c3_source_tree_shape`: a `div` with a `span` child (which
nests a fragment), a text child and a `p` child. -/
theorem c3_source_tree_shape_witness :
    (fun mW : JSXNode =>
      noCrossN [] mW = true ∧ (spansN mW).Nodup ∧
      (treeMatchN (buildSourceTree 0 [] [] mW).2 mW
          (buildSourceTree 0 [] [] mW).1 = true
       ∧ ((buildSourceTree 0 [] [] mW).2).map Prod.fst = spansN mW
       ∧ (buildSourceTree 0 [] [] mW).1.id = 1))
    (JSXNode.elem 1 (JSXName.ident "div") []
      [JSXChild.node (JSXNode.elem 2 (JSXName.ident "span") []
         [JSXChild.node (JSXNode.frag 4 [])]),
       JSXChild.otherChild,
       JSXChild.node (JSXNode.elem 3 (JSXName.ident "p") [] [])]) :=
  have h1 : noCrossN [] (JSXNode.elem 1 (JSXName.ident "div") []
      [JSXChild.node (JSXNode.elem 2 (JSXName.ident "span") []
         [JSXChild.node (JSXNode.frag 4 [])]),
       JSXChild.otherChild,
       JSXChild.node (JSXNode.elem 3 (JSXName.ident "p") [] [])]) = true := by
    simp [noCrossN, noCrossC, isCrossTag,
      show is_starts_with_uppercase "span" = false from rfl,
      show is_starts_with_uppercase "p" = false from rfl]
  have h2 : (spansN (JSXNode.elem 1 (JSXName.ident "div") []
      [JSXChild.node (JSXNode.elem 2 (JSXName.ident "span") []
         [JSXChild.node (JSXNode.frag 4 [])]),
       JSXChild.otherChild,
       JSXChild.node (JSXNode.elem 3 (JSXName.ident "p") [] [])])).Nodup := by
    simp [spansN, spansC, levelSpans, descSpans, spansCOfNode, JSXNode.span,
      specLevelPairs]
  ⟨h1, h2, c3_source_tree_shape 0 [] [] _ h1 h2⟩

/-- C6: at the failing input — a unit whose component returns
`<div><Foo/></div>` with `function Foo` returning `<span/>` (span 10) —
the populated JSXRecord is `[(1, 1), (10, 1)]`: besides the entry for the
directly visited `div`, the resolution pass wrote an entry for the
declaration's `span` node keyed by its span 10, mapping to node id 1 of
the discarded temporary fragment tree; the node actually spliced into the
final SourceTree has id 2, and the call-site `<Foo/>` (span 2) got no
entry at all.  The claim's "one entry per directly visited markup node,
mapping to that node's identity in the final SourceTree" is violated. -/
theorem c6_spliced_decl_record_entry :
    buildSourceTree 2
        [Decl.fnDecl "Foo"
          [RetStmt.ret (some (JSXNode.elem 10 (JSXName.ident "span") [] []))]]
        []
        (JSXNode.elem 1 (JSXName.ident "div") []
          [JSXChild.node (JSXNode.elem 2 (JSXName.ident "Foo") [] [])])
      = (BNode.mk 1 (Node.element "div" []) [BNode.mk 2 (Node.element "span" []) []],
         [(1, 1), (10, 1)])
    ∧ recLookup [(1, 1), (10, 1)] 10 = some 1
    ∧ (10 : Nat) ∉ [1, 2]
    ∧ (1 : Nat) ≠ 2 := by
  refine ⟨?_, rfl, by decide, by decide⟩
  simp +decide [buildSourceTree, visitRootNode, visitChildren, phaseA, phaseB,
    resolveSplice, resolveDecls, resolveStmts, copyForest, copyNode, recInsert,
    is_starts_with_uppercase, createElement, createFragment, qualnameOf]

/-- C7 (counterexample): `function Foo` with two top-level `return`
statements (`<span/>`, then unreachable `<p/>`): resolution splices BOTH
return subtrees as children of the call site, where the claim announces
exactly the first return's markup subtree (one child). -/
theorem c7_multiple_returns_counterexample :
    (buildSourceTree 2
        [Decl.fnDecl "Foo"
          [RetStmt.ret (some (JSXNode.elem 10 (JSXName.ident "span") [] [])),
           RetStmt.ret (some (JSXNode.elem 20 (JSXName.ident "p") [] []))]]
        []
        (JSXNode.elem 1 (JSXName.ident "div") []
          [JSXChild.node (JSXNode.elem 2 (JSXName.ident "Foo") [] [])])).1
      = BNode.mk 1 (Node.element "div" [])
          [BNode.mk 2 (Node.element "span" []) [],
           BNode.mk 3 (Node.element "p" []) []]
    ∧ ([BNode.mk 2 (Node.element "span" []) [],
        BNode.mk 3 (Node.element "p" []) []].length = 2)
    ∧ (2 : Nat) ≠ 1 := by
  refine ⟨?_, rfl, by decide⟩
  simp +decide [buildSourceTree, visitRootNode, visitChildren, phaseA, phaseB,
    resolveSplice, resolveDecls, resolveStmts, copyForest, copyNode, recInsert,
    is_starts_with_uppercase, createElement, createFragment, qualnameOf]

mutual
theorem specNode_shape (m : JSXNode) (n : Nat) :
    shapeN m (specNode m n).1 = true := by
  cases m with
  | elem sp nm ats cs =>
    simp only [specNode, shapeN, Bool.and_eq_true]
    exact ⟨by simp, specChildren_shape cs (n + 1)⟩
  | frag sp cs =>
    simp only [specNode, shapeN, Bool.and_eq_true]
    exact ⟨by simp, specChildren_shape cs (n + 1)⟩
termination_by (sizeOf m, 2)

theorem specChildren_shape (cs : List JSXChild) (n : Nat) :
    shapeC cs (specChildren cs n).1 = true := by
  simp only [specChildren]
  exact specB_shape cs n (n + mcount cs)
termination_by (sizeOf cs, 1)

theorem specB_shape (cs : List JSXChild) (lvl d : Nat) :
    shapeC cs (specB cs lvl d).1 = true := by
  cases cs with
  | nil => simp [specB, shapeC]
  | cons c rest =>
    cases c with
    | node m =>
      cases m with
      | elem sp nm ats mcs =>
        simp only [specB, shapeC, Bool.and_eq_true]
        constructor
        · simp only [shapeN, Bool.and_eq_true, JSXNode.valOf]
          refine ⟨by simp, ?_⟩
          have := specChildren_shape mcs d
          simpa [specKids] using this
        · exact specB_shape rest (lvl + 1) (specKids (JSXNode.elem sp nm ats mcs) d).2.1
      | frag sp mcs =>
        simp only [specB, shapeC, Bool.and_eq_true]
        constructor
        · simp only [shapeN, Bool.and_eq_true, JSXNode.valOf]
          refine ⟨by simp, ?_⟩
          have := specChildren_shape mcs d
          simpa [specKids] using this
        · exact specB_shape rest (lvl + 1) (specKids (JSXNode.frag sp mcs) d).2.1
    | exprCall ck =>
      simp only [specB, shapeC]
      exact specB_shape rest lvl d
    | otherChild =>
      simp only [specB, shapeC]
      exact specB_shape rest lvl d
termination_by (sizeOf cs, 0)
end

mutual
theorem shapeN_copy (m : JSXNode) (b : BNode) (nid : Nat) :
    shapeN m (copyNode b nid).1 = shapeN m b := by
  cases b with
  | mk i v kids =>
    cases m with
    | elem sp nm ats cs =>
      simp only [copyNode, shapeN]
      rw [shapeC_copy cs kids (nid + 1)]
    | frag sp cs =>
      simp only [copyNode, shapeN]
      rw [shapeC_copy cs kids (nid + 1)]
termination_by sizeOf m + sizeOf b

theorem shapeC_copy (cs : List JSXChild) (bs : List BNode) (nid : Nat) :
    shapeC cs (copyForest bs nid).1 = shapeC cs bs := by
  cases cs with
  | nil =>
    cases bs with
    | nil => simp [copyForest]
    | cons b bs' => simp [copyForest, shapeC]
  | cons c rest =>
    cases c with
    | node m =>
      cases bs with
      | nil => simp [copyForest]
      | cons b bs' =>
        simp only [copyForest, shapeC]
        rw [shapeN_copy m b nid, shapeC_copy rest bs' (copyNode b nid).2]
    | exprCall ck =>
      simp only [shapeC]
      exact shapeC_copy rest bs nid
    | otherChild =>
      simp only [shapeC]
      exact shapeC_copy rest bs nid
termination_by sizeOf cs + sizeOf bs
end

theorem shapeForest_copy (ms : List JSXNode) (bs : List BNode) (nid : Nat) :
    shapeForest ms (copyForest bs nid).1 = shapeForest ms bs := by
  induction ms generalizing bs nid with
  | nil =>
    cases bs with
    | nil => simp [copyForest]
    | cons b bs' => simp [copyForest, shapeForest]
  | cons m ms' ih =>
    cases bs with
    | nil => simp [copyForest, shapeForest]
    | cons b bs' =>
      simp only [copyForest, shapeForest]
      rw [shapeN_copy m b nid, ih bs' (copyNode b nid).2]

theorem shapeForest_append {a b : List JSXNode} {xs ys : List BNode}
    (ha : shapeForest a xs = true) (hb : shapeForest b ys = true) :
    shapeForest (a ++ b) (xs ++ ys) = true := by
  induction a generalizing xs with
  | nil =>
    cases xs with
    | nil => simpa using hb
    | cons x xs' => simp [shapeForest] at ha
  | cons m ms ih =>
    cases xs with
    | nil => simp [shapeForest] at ha
    | cons x xs' =>
      simp only [shapeForest, Bool.and_eq_true] at ha
      simp only [List.cons_append, shapeForest, Bool.and_eq_true]
      exact ⟨ha.1, ih ha.2⟩

theorem resolveStmts_shape (fuel : Nat) (md : List Decl) (taro : List String) :
    ∀ (body : List RetStmt) (st : VSt),
    (∀ m ∈ returnsOf body, noCrossN taro m = true) →
    shapeForest (returnsOf body) (resolveStmts fuel body md taro st).1 = true := by
  intro body
  induction body with
  | nil =>
    intro st _
    simp [resolveStmts, returnsOf, shapeForest]
  | cons stt rest ih =>
    intro st h
    cases stt with
    | ret mo =>
      cases mo with
      | some m =>
        obtain ⟨n, r⟩ := st
        have hm : noCrossN taro m = true := h m (by simp [returnsOf])
        have hrest : ∀ m' ∈ returnsOf rest, noCrossN taro m' = true := by
          intro m' hm'
          exact h m' (by simp [returnsOf, hm'])
        simp only [resolveStmts, returnsOf]
        rw [visitRootNode_spec fuel md taro m n r hm]
        simp only [shapeForest, Bool.and_eq_true]
        exact ⟨specNode_shape m n, by simpa [returnsOf] using ih _ hrest⟩
      | none =>
        have hrest : ∀ m' ∈ returnsOf rest, noCrossN taro m' = true := by
          intro m' hm'
          exact h m' (by simp [returnsOf, hm'])
        simp only [resolveStmts, returnsOf]
        simpa [returnsOf] using ih st hrest
    | otherStmt =>
      have hrest : ∀ m' ∈ returnsOf rest, noCrossN taro m' = true := by
        intro m' hm'
        exact h m' (by simp [returnsOf, hm'])
      simp only [resolveStmts, returnsOf]
      simpa [returnsOf] using ih st hrest

theorem resolveDecls_shape (fuel : Nat) (md : List Decl) (taro : List String)
    (name : String) (sty : SearchType) :
    ∀ (ds : List Decl) (st : VSt),
    (∀ m ∈ matchingReturns ds name sty, noCrossN taro m = true) →
    shapeForest (matchingReturns ds name sty)
      (resolveDecls fuel ds md taro name sty st).1 = true := by
  intro ds
  induction ds with
  | nil =>
    intro st _
    simp [resolveDecls, matchingReturns, shapeForest]
  | cons d rest ih =>
    intro st h
    have hrest : ∀ m ∈ matchingReturns rest name sty, noCrossN taro m = true := by
      intro m hm
      exact h m (by simp [matchingReturns, hm])
    cases d with
    | fnDecl nm body =>
      cases sty with
      | normal =>
        by_cases hname : nm = name
        · subst hname
          have hbody : ∀ m ∈ returnsOf body, noCrossN taro m = true := by
            intro m hm
            exact h m (by simp [matchingReturns, declMatches, hm])
          simp only [resolveDecls, if_pos rfl]
          have hsh := resolveStmts_shape fuel md taro body st hbody
          have hrs := ih (resolveStmts fuel body md taro st).2 hrest
          simp only [matchingReturns, declMatches, if_pos rfl]
          exact shapeForest_append hsh hrs
        · simp only [resolveDecls, if_neg hname]
          simp only [matchingReturns, declMatches, if_neg hname]
          simpa using ih st hrest
      | cls =>
        simp only [resolveDecls]
        simp only [matchingReturns, declMatches]
        simpa using ih st hrest
    | classMethod nm body =>
      cases sty with
      | cls =>
        by_cases hname : nm = name
        · subst hname
          have hbody : ∀ m ∈ returnsOf body, noCrossN taro m = true := by
            intro m hm
            exact h m (by simp [matchingReturns, declMatches, hm])
          simp only [resolveDecls, if_pos rfl]
          have hsh := resolveStmts_shape fuel md taro body st hbody
          have hrs := ih (resolveStmts fuel body md taro st).2 hrest
          simp only [matchingReturns, declMatches, if_pos rfl]
          exact shapeForest_append hsh hrs
        · simp only [resolveDecls, if_neg hname]
          simp only [matchingReturns, declMatches, if_neg hname]
          simpa using ih st hrest
      | normal =>
        simp only [resolveDecls]
        simp only [matchingReturns, declMatches]
        simpa using ih st hrest
    | otherDecl =>
      simp only [resolveDecls]
      simp only [matchingReturns, declMatches]
      simpa using ih st hrest

/-- C7 (amended): a cross-component reference splices in, as children of
the current node, one deep copy of the markup subtree of EVERY top-level
`return` statement of EVERY matching declaration, in scan order (free
functions for a tag/plain-call reference, class methods for a
`this.<member>` call); when no declaration matches, nothing is spliced and
traversal continues. -/
theorem c7_resolution_splices_all_matches (fuel : Nat) (md : List Decl)
    (taro : List String) (name : String) (sty : SearchType) (st : VSt)
    (h : ∀ m ∈ matchingReturns md name sty, noCrossN taro m = true) :
    shapeForest (matchingReturns md name sty)
      (resolveSplice (fuel + 1) md taro name sty st).1 = true
    ∧ (matchingReturns md name sty = [] →
        (resolveSplice (fuel + 1) md taro name sty st).1 = []) := by
  have hmain : shapeForest (matchingReturns md name sty)
      (resolveSplice (fuel + 1) md taro name sty st).1 = true := by
    simp only [resolveSplice]
    rw [shapeForest_copy]
    exact resolveDecls_shape fuel md taro name sty md ⟨1, st.record⟩ h
  refine ⟨hmain, ?_⟩
  intro hempty
  rw [hempty] at hmain
  cases hq : (resolveSplice (fuel + 1) md taro name sty st).1 with
  | nil => rfl
  | cons b bs =>
    rw [hq] at hmain
    simp [shapeForest] at hmain

/-- Witness for `c7_resolution_splices_all_matches`: resolving `Foo`
against a module with one matching function returning `<span/>`. -/
theorem c7_resolution_splices_all_matches_witness :
    (∀ m ∈ matchingReturns
        [Decl.fnDecl "Foo"
          [RetStmt.ret (some (JSXNode.elem 10 (JSXName.ident "span") [] []))]]
        "Foo" SearchType.normal, noCrossN [] m = true)
    ∧ (shapeForest
        (matchingReturns
          [Decl.fnDecl "Foo"
            [RetStmt.ret (some (JSXNode.elem 10 (JSXName.ident "span") [] []))]]
          "Foo" SearchType.normal)
        (resolveSplice 1
          [Decl.fnDecl "Foo"
            [RetStmt.ret (some (JSXNode.elem 10 (JSXName.ident "span") [] []))]]
          [] "Foo" SearchType.normal ⟨5, []⟩).1 = true
       ∧ (matchingReturns
            [Decl.fnDecl "Foo"
              [RetStmt.ret (some (JSXNode.elem 10 (JSXName.ident "span") [] []))]]
            "Foo" SearchType.normal = [] →
          (resolveSplice 1
            [Decl.fnDecl "Foo"
              [RetStmt.ret (some (JSXNode.elem 10 (JSXName.ident "span") [] []))]]
            [] "Foo" SearchType.normal ⟨5, []⟩).1 = [])) :=
  have hh : ∀ m ∈ matchingReturns
      [Decl.fnDecl "Foo"
        [RetStmt.ret (some (JSXNode.elem 10 (JSXName.ident "span") [] []))]]
      "Foo" SearchType.normal, noCrossN [] m = true := by
    intro m hm
    have hme : m = JSXNode.elem 10 (JSXName.ident "span") [] [] := by
      simpa [matchingReturns, declMatches, returnsOf] using hm
    rw [hme]
    simp [noCrossN, noCrossC]
  ⟨hh, c7_resolution_splices_all_matches 0
    [Decl.fnDecl "Foo"
      [RetStmt.ret (some (JSXNode.elem 10 (JSXName.ident "span") [] []))]]
    [] "Foo" SearchType.normal ⟨5, []⟩ hh⟩

